import Mathlib

/-!
Streem string substrate (`src/string.c`).

A shallow embedding of the tagged string representation and of the intern
table of `src/string.c`, followed by theorems about it.

Modelling conventions.

* Addresses and machine words are natural numbers; `0` is `NULL`.
* Byte memory is a function from addresses to bytes.  The `struct strm_string`
  objects created by `str_new` live in a typed heap (`State.heap`) indexed by
  their address, so byte writes never alias a struct field.
* `malloc` is a bump allocator that never fails: it hands out the block that
  starts at `State.brk`.
* The little-endian branch of `VALP_PTR` is the one embedded, `char` is the
  signed 8-bit type of x86-64, `size_t` and `strm_value` are 64 bits wide and
  `khint_t` is 32 bits wide.
* The mutex of `strm_str_intern` / `strm_str_intern_str` has no effect on a
  sequential run and is left out.
-/

namespace Streem

/-! ## Bytes, memory and pointers -/

/-- One `char` of memory, as its unsigned 8-bit pattern. -/
abbrev Byte := Fin 256

/-- Byte-addressed memory. -/
abbrev Memory := Nat → Byte

/-- Truncation of an integer to a `char` (as in `s[-1] = len`). -/
def to_char (n : Nat) : Byte := ⟨n % 256, Nat.mod_lt n (by decide)⟩

/-- Conversion `(size_t) c` of a signed `char` (sign extension to 64 bits). -/
def char_to_size_t (c : Byte) : Nat :=
  if c.val < 128 then c.val else 2 ^ 64 - 256 + c.val

/-- Conversion `(khint_t) c` of a signed `char` (sign extension to 32 bits). -/
def char_to_khint_t (c : Byte) : Nat :=
  if c.val < 128 then c.val else 2 ^ 32 - 256 + c.val

/-- A `const char *` value.  `mem a` is the address `a` of byte memory
(`mem 0` is `NULL`); `val w off` is `VALP_PTR(&w) + off`, a pointer into the
object that holds the word `w` itself (the inline variants decode to such a
pointer). -/
inductive CPtr where
  | mem (a : Nat)
  | val (w : Nat) (off : Nat)
deriving DecidableEq

/-- Byte `i` of the 64-bit word `w` in little-endian layout. -/
def byte_at (w i : Nat) : Byte := to_char (w / 256 ^ i)

/-- The byte `ptr[i]`. -/
def CPtr.load (m : Memory) : CPtr → Nat → Byte
  | .mem a, i => m (a + i)
  | .val w off, i => byte_at w (off + i)

/-- The address held by a pointer that points into byte memory.  A pointer
into a word has no address in this model; `str_intern` and
`strm_str_intern_str` only take the address of pointers decoded from
`STRM_TAG_STRING_O` / `STRM_TAG_STRING_F` values (or of `NULL`), which are
`mem` pointers. -/
def CPtr.addr : CPtr → Nat
  | .mem a => a
  | .val _ _ => 0

/-- The `n` bytes `p[0 .. n-1]`. -/
def read_bytes (m : Memory) (p : Nat) : Nat → List Byte
  | 0 => []
  | n + 1 => m p :: read_bytes m (p + 1) n

/-- The word whose little-endian bytes are the given list. -/
def word_of_bytes : List Byte → Nat
  | [] => 0
  | b :: bs => b.val + 256 * word_of_bytes bs

/-- Memory after `memcpy(dst, src, n)`. -/
def memcpy (m : Memory) (dst : Nat) (src : CPtr) (n : Nat) : Memory :=
  fun a => if dst ≤ a ∧ a < dst + n then src.load m (a - dst) else m a

/-- Memory after `memset(dst, c, n)`. -/
def memset (m : Memory) (dst : Nat) (c : Byte) (n : Nat) : Memory :=
  fun a => if dst ≤ a ∧ a < dst + n then c else m a

/-- Memory after the store `*a = b`. -/
def store (m : Memory) (a : Nat) (b : Byte) : Memory :=
  fun x => if x = a then b else m x

/-- Truth of `memcmp(a, b, n) == 0`. -/
def memcmp_eq (m : Memory) (a b : CPtr) (n : Nat) : Bool :=
  (List.range n).all (fun i => a.load m i == b.load m i)

/-! ## Tagged values (`strm.h`) -/

/-- Modelled from the spec: `strm.h` is not among the sources.  The spec
describes a tagged value as one machine word holding a small discriminant and
its payload; `string.c` keeps the payload in the six low-order bytes
(`VALP_PTR`, `STRM_VAL_MASK`) and returns `tag | (val & STRM_VAL_MASK)`, so
the discriminant is the two high-order bytes.  `STRM_MAKE_TAG n` is the
discriminant `0xFFF0 | n` shifted above the 48 payload bits. -/
def STRM_MAKE_TAG (n : Nat) : Nat := (0xFFF0 + n) * 2 ^ 48

/-- Modelled from the spec: tag of the InlineShort variant (`strm.h` is not
among the sources). -/
def STRM_TAG_STRING_I : Nat := STRM_MAKE_TAG 6

/-- Modelled from the spec: tag of the InlineSix variant (`strm.h` is not
among the sources). -/
def STRM_TAG_STRING_6 : Nat := STRM_MAKE_TAG 7

/-- Modelled from the spec: tag of the OwnedBuffer variant (`strm.h` is not
among the sources). -/
def STRM_TAG_STRING_O : Nat := STRM_MAKE_TAG 8

/-- Modelled from the spec: tag of the ForeignRef variant (`strm.h` is not
among the sources). -/
def STRM_TAG_STRING_F : Nat := STRM_MAKE_TAG 9

/-- Modelled from the spec: `strm_value_tag(v)`, the word `v` with its 48
payload bits cleared, `v & STRM_TAG_MASK` (`strm.h` is not among the
sources). -/
def strm_value_tag (v : Nat) : Nat := v / 2 ^ 48 % 2 ^ 16 * 2 ^ 48

/-- Modelled from the spec: `strm_value_val(v)`, the 48 payload bits of `v`,
`v & STRM_VAL_MASK` (`strm.h` is not among the sources). -/
def strm_value_val (v : Nat) : Nat := v % 2 ^ 48

/-- Modelled from the spec: `sizeof(struct strm_string)`, a pointer and a
length (`strm.h` is not among the sources). -/
def sizeof_strm_string : Nat := 16

/-- Modelled from the spec: the object `struct strm_string` of `strm.h` (not
among the sources), which `string.c` uses through `str->ptr` and `str->len`:
the pointer to the bytes and their length.  The `len` field is taken to hold
any `size_t` that `str_new` stores in it. -/
structure strm_string_rec where
  ptr : Nat
  len : Nat
deriving DecidableEq

/-! ## The readonly-data detector -/

/-- The three compile-time variants of `readonly_data_p`, with the boundary
addresses that the platform supplies. -/
inductive Detector where
  | disabled
  | macho (get_etext get_edata : Nat)
  | linker (etext init_array_start : Nat)

/-- The function `readonly_data_p(p)`. -/
def readonly_data_p : Detector → Nat → Bool
  | .disabled, _ => false
  | .macho get_etext get_edata, p => decide (get_etext < p) && decide (p < get_edata)
  | .linker etext init_array_start, p => decide (etext < p) && decide (p < init_array_start)

/-- The upper boundary address of the range in which a detector variant
answers true (`get_edata()`, `__init_array_start`); 0 for the disabled
variant, which has no such range. -/
def Detector.upper : Detector → Nat
  | .disabled => 0
  | .macho _ get_edata => get_edata
  | .linker _ init_array_start => init_array_start

/-- Compile-time configuration: the detector variant and
`STRM_STR_INTERN_LIMIT`. -/
structure Config where
  detector : Detector
  STRM_STR_INTERN_LIMIT : Nat

/-- The default configuration of a Linux build: linker symbols and the
default limit 64. -/
def Config.default (etext init_array_start : Nat) : Config :=
  ⟨.linker etext init_array_start, 64⟩

/-! ## The intern table -/

/-- The key `struct sym_key { ptr; len; }`. -/
structure sym_key where
  ptr : Nat
  len : Nat
deriving DecidableEq

/-- The loop of `sym_hash`: `while (len--) h = (h << 5) - h + (khint_t) *s++`. -/
def sym_hash_loop (m : Memory) : Nat → Nat → Nat → Nat
  | _, h, 0 => h
  | s, h, len + 1 =>
    sym_hash_loop m (s + 1)
      ((((h * 32) % 2 ^ 32 + 2 ^ 32 - h) % 2 ^ 32 + char_to_khint_t (m s)) % 2 ^ 32) len

/-- The function `sym_hash(key)`: `h = *s++` and then `len` rounds of the loop,
so it reads `key.ptr[0 .. key.len]`. -/
def sym_hash (m : Memory) (key : sym_key) : Nat :=
  sym_hash_loop m (key.ptr + 1) (char_to_khint_t (m key.ptr)) key.len

/-- The function `sym_eq(a, b)`. -/
def sym_eq (m : Memory) (a b : sym_key) : Bool :=
  if a.len ≠ b.len then false
  else if memcmp_eq m (.mem a.ptr) (.mem b.ptr) a.len then true
  else false

/-- One occupied bucket of the table: key, value, and the hash under which
`kh_put` placed it. -/
structure Entry where
  key : sym_key
  value : Nat
  hash : Nat
deriving DecidableEq

/-- Modelled from the spec: `khash.h` is not among the sources.  The table
instantiated by `KHASH_INIT(sym, struct sym_key, strm_string, 1, sym_hash,
sym_eq)` is the spec's append-only mapping from byte content to canonical
value; it is modelled as the list of its occupied buckets in insertion order,
and a bucket index `khiter_t` as a position in that list. -/
abbrev khash_sym := List Entry

/-- Modelled from the spec: `kh_init(sym)` of `khash.h` (not among the
sources), the empty table. -/
def kh_init : khash_sym := []

/-- Modelled from the spec: the probe of `kh_put` / `kh_get` of `khash.h` (not
among the sources).  A hash table looks a key up by hashing it with
`sym_hash` and comparing it with `sym_eq` against the keys stored under that
hash: the first bucket placed under the same hash whose key is `sym_eq` to
the probe key. -/
def kh_find (m : Memory) (h : Nat) (key : sym_key) : khash_sym → Option Nat
  | [] => none
  | e :: es =>
    if e.hash = h ∧ sym_eq m e.key key = true then some 0
    else (kh_find m h key es).map (· + 1)

/-- Modelled from the spec: `kh_put(sym, table, key, &ret)` of `khash.h` (not
among the sources): on a hit the table is unchanged and `ret = 0`; on a miss
the key is placed in a new bucket (its value not yet set) and `ret = 1`.
Returns the table, the bucket index and `ret`. -/
def kh_put (m : Memory) (t : khash_sym) (key : sym_key) : khash_sym × Nat × Nat :=
  match kh_find m (sym_hash m key) key t with
  | some k => (t, k, 0)
  | none => (t ++ [⟨key, 0, sym_hash m key⟩], t.length, 1)

/-- Update of bucket `k` (the assignments through `kh_key` and `kh_value`). -/
def kh_modify (f : Entry → Entry) : khash_sym → Nat → khash_sym
  | [], _ => []
  | e :: es, 0 => f e :: es
  | e :: es, k + 1 => e :: kh_modify f es k

/-- Modelled from the spec: `kh_value(table, k)` of `khash.h` (not among the
sources), the value stored in bucket `k`. -/
def kh_value (t : khash_sym) (k : Nat) : Nat :=
  match t.get? k with
  | some e => e.value
  | none => 0

/-- The state that `string.c` reads and writes: byte memory, the
`struct strm_string` objects, the allocator's break, the global `sym_table`
(`none` is `NULL`) and the flag `strm_event_loop_started`. -/
structure State where
  mem : Memory
  heap : Nat → strm_string_rec
  brk : Nat
  sym_table : Option khash_sym
  strm_event_loop_started : Bool

/-- The call `malloc(size)`: the block at the break, which then moves up. -/
def malloc (st : State) (size : Nat) : Nat × State :=
  (st.brk, { st with brk := st.brk + size })

/-- The assignments `str->ptr = ptr; str->len = len`. -/
def set_strm_string (st : State) (str ptr len : Nat) : State :=
  { st with heap := fun a => if a = str then ⟨ptr, len⟩ else st.heap a }

/-! ## `str_new` and the decoders -/

/-- The `mkbuf` branch of `str_new`: the OwnedBuffer variant. -/
def str_new_mkbuf (st : State) (p len : Nat) : Nat × State :=
  let (str, st1) := malloc st (sizeof_strm_string + len + 1)
  let buf := str + sizeof_strm_string
  let m1 := if p ≠ 0 then memcpy st1.mem buf (.mem p) len else memset st1.mem buf 0 len
  let m2 := store m1 (buf + len) 0
  let st2 := set_strm_string { st1 with mem := m2 } str buf len
  (STRM_TAG_STRING_O + strm_value_val str, st2)

/-- The function `str_new(p, len, foreign)`. -/
def str_new (cfg : Config) (st : State) (p len : Nat) (foreign : Int) : Nat × State :=
  if p = 0 then str_new_mkbuf st p len
  else if len < 6 then
    (STRM_TAG_STRING_I + strm_value_val (word_of_bytes (to_char len :: read_bytes st.mem p len)), st)
  else if len = 6 then
    (STRM_TAG_STRING_6 + strm_value_val (word_of_bytes (read_bytes st.mem p len)), st)
  else if p ≠ 0 ∧ (foreign ≠ 0 ∨ readonly_data_p cfg.detector p = true) then
    let (str, st1) := malloc st sizeof_strm_string
    let st2 := set_strm_string st1 str p len
    (STRM_TAG_STRING_F + strm_value_val str, st2)
  else str_new_mkbuf st p len

/-- The function `strm_strp_ptr(&s)`. -/
def strm_strp_ptr (st : State) (s : Nat) : CPtr :=
  if strm_value_tag s = STRM_TAG_STRING_I then .val s 1
  else if strm_value_tag s = STRM_TAG_STRING_6 then .val s 0
  else if strm_value_tag s = STRM_TAG_STRING_O ∨ strm_value_tag s = STRM_TAG_STRING_F then
    .mem (st.heap (strm_value_val s)).ptr
  else .mem 0

/-- Modelled from the spec: the macro `strm_str_ptr(s)` of `strm.h` (not among
the sources), the decoder applied to the value itself,
`strm_strp_ptr(&s)`. -/
def strm_str_ptr (st : State) (s : Nat) : CPtr := strm_strp_ptr st s

/-- The function `strm_strp_cstr(&s, buf)`: the returned pointer and the
memory after the call. -/
def strm_strp_cstr (st : State) (s : Nat) (buf : Nat) : CPtr × Memory :=
  if strm_value_tag s = STRM_TAG_STRING_I then
    let len := char_to_size_t (byte_at s 0)
    if len = 5 then (.mem buf, memcpy st.mem buf (.val s 0) len)
    else (.val s 1, st.mem)
  else if strm_value_tag s = STRM_TAG_STRING_6 then
    (.mem buf, memcpy st.mem buf (.val s 0) 6)
  else if strm_value_tag s = STRM_TAG_STRING_O ∨ strm_value_tag s = STRM_TAG_STRING_F then
    (.mem (st.heap (strm_value_val s)).ptr, st.mem)
  else (.mem 0, st.mem)

/-- The function `strm_str_len(s)`. -/
def strm_str_len (st : State) (s : Nat) : Nat :=
  if strm_value_tag s = STRM_TAG_STRING_I then char_to_size_t (byte_at s 0)
  else if strm_value_tag s = STRM_TAG_STRING_6 then 6
  else if strm_value_tag s = STRM_TAG_STRING_O ∨ strm_value_tag s = STRM_TAG_STRING_F then
    (st.heap (strm_value_val s)).len
  else 0

/-- The function `strm_str_intern_p(s)`. -/
def strm_str_intern_p (s : Nat) : Bool :=
  if strm_value_tag s = STRM_TAG_STRING_I then true
  else if strm_value_tag s = STRM_TAG_STRING_6 then true
  else if strm_value_tag s = STRM_TAG_STRING_F then true
  else false

/-- The function `strm_string_p(s)`. -/
def strm_string_p (s : Nat) : Bool :=
  if strm_value_tag s = STRM_TAG_STRING_I then true
  else if strm_value_tag s = STRM_TAG_STRING_6 then true
  else if strm_value_tag s = STRM_TAG_STRING_O then true
  else if strm_value_tag s = STRM_TAG_STRING_F then true
  else false

/-- The function `strm_str_eq(a, b)`. -/
def strm_str_eq (st : State) (a b : Nat) : Bool :=
  if a = b then true
  else if strm_value_tag a = STRM_TAG_STRING_F ∧ strm_value_tag b = STRM_TAG_STRING_F then false
  else if strm_str_len st a ≠ strm_str_len st b then false
  else if memcmp_eq st.mem (strm_str_ptr st a) (strm_str_ptr st b) (strm_str_len st a) then true
  else false

/-! ## Interning -/

/-- The table after `if (!sym_table) sym_table = kh_init(sym)`. -/
def sym_table_or_init (st : State) : khash_sym :=
  match st.sym_table with
  | none => kh_init
  | some t => t

/-- The function `str_intern(p, len)`. -/
def str_intern (cfg : Config) (st : State) (p len : Nat) : Nat × State :=
  if len ≤ 6 then str_new cfg st p len 0
  else
    let t0 := sym_table_or_init st
    let key : sym_key := ⟨p, len⟩
    let (t1, k, ret) := kh_put st.mem t0 key
    if ret = 0 then (kh_value t1 k, { st with sym_table := some t1 })
    else
      let (str, st1) := str_new cfg { st with sym_table := some t1 } p len 1
      let t2 := kh_modify (fun e => { e with key := ⟨(strm_str_ptr st1 str).addr, e.key.len⟩ }) t1 k
      let t3 := kh_modify (fun e => { e with value := str }) t2 k
      (str, { st1 with sym_table := some t3 })

/-- The function `strm_str_new(p, len)`. -/
def strm_str_new (cfg : Config) (st : State) (p len : Nat) : Nat × State :=
  if st.strm_event_loop_started = false ∧ p ≠ 0 ∧
      (len < cfg.STRM_STR_INTERN_LIMIT ∨ readonly_data_p cfg.detector p = true) then
    str_intern cfg st p len
  else str_new cfg st p len 0

/-- The function `strm_str_intern(p, len)`; `none` is the failure of
`assert(p != NULL)`. -/
def strm_str_intern (cfg : Config) (st : State) (p len : Nat) : Option (Nat × State) :=
  if p = 0 then none
  else some (str_intern cfg st p len)

/-- The function `strm_str_intern_str(str)`. -/
def strm_str_intern_str (cfg : Config) (st : State) (str : Nat) : Nat × State :=
  if strm_str_intern_p str = true then (str, st)
  else str_intern cfg st (strm_str_ptr st str).addr (strm_str_len st str)

/-! ## Reachable states -/

/-- A string value as the operations take it: it carries one of the four
string tags, and the `ptr` field of an OwnedBuffer is not `NULL`. -/
def valid_string (st : State) (s : Nat) : Prop :=
  strm_string_p s = true ∧
    (strm_value_tag s = STRM_TAG_STRING_O → (st.heap (strm_value_val s)).ptr ≠ 0)

/-- The states of a run.  A run starts with `sym_table == NULL`; it calls the
public operations `strm_str_new`, `strm_str_intern` and
`strm_str_intern_str` while the allocator stays inside the 48-bit range a
payload can hold; in between, the rest of the program may store into byte
memory, allocate, and start the event loop. -/
inductive Reachable (cfg : Config) : State → Prop
  | start (st : State) : st.sym_table = none → Reachable cfg st
  | new (st : State) (p len : Nat) :
      Reachable cfg st → st.brk < 2 ^ 48 → Reachable cfg (strm_str_new cfg st p len).2
  | intern (st : State) (p len : Nat) (r : Nat × State) :
      Reachable cfg st → st.brk < 2 ^ 48 → strm_str_intern cfg st p len = some r →
      Reachable cfg r.2
  | intern_str (st : State) (s : Nat) :
      Reachable cfg st → st.brk < 2 ^ 48 → valid_string st s →
      Reachable cfg (strm_str_intern_str cfg st s).2
  | write (st : State) (m : Memory) : Reachable cfg st → Reachable cfg { st with mem := m }
  | alloc (st : State) (n : Nat) : Reachable cfg st → Reachable cfg { st with brk := st.brk + n }
  | loop_started (st : State) :
      Reachable cfg st → Reachable cfg { st with strm_event_loop_started := true }

/-- What holds of a bucket in every reachable state: its value is a
ForeignRef word whose `struct strm_string`, allocated below the break, holds
exactly the key's pointer and length, and the key is longer than six bytes
and not `NULL`. -/
def entry_ok (st : State) (e : Entry) : Prop :=
  ∃ a, a < 2 ^ 48 ∧ a < st.brk ∧ e.value = STRM_TAG_STRING_F + a ∧
    st.heap a = ⟨e.key.ptr, e.key.len⟩ ∧ 6 < e.key.len ∧ e.key.ptr ≠ 0

/-- Every bucket of the table is `entry_ok`. -/
def table_ok (st : State) : Prop :=
  ∀ e, e ∈ sym_table_or_init st → entry_ok st e

/-- The step from `st` to `st'` only allocates: the break does not move down
and the `struct strm_string` objects below the old break are untouched. -/
def heap_extends (st st' : State) : Prop :=
  st.brk ≤ st'.brk ∧ ∀ a, a < st.brk → st'.heap a = st.heap a

/-- The value `v` decodes, in state `st`, to the `n` bytes `b 0 .. b (n-1)`:
`strm_str_len` gives `n` and `strm_strp_ptr` points at those bytes. -/
def decodes_to (st : State) (v n : Nat) (b : Nat → Byte) : Prop :=
  strm_str_len st v = n ∧ ∀ i, i < n → (strm_strp_ptr st v).load st.mem i = b i

/-! ## Concrete inputs -/

/-- The seven bytes of "streem!". -/
def demo_bytes : List Byte := [115, 116, 114, 101, 101, 109, 33]

/-- A memory that holds "streem!" in five buffers: at 100 and at 200, each
followed by a zero byte; at 300, followed by the byte 1; and at 1100 and at
1200, inside the readonly range of `demo_cfg`, each followed by a zero byte.
Every other byte is zero. -/
def demo_mem : Memory := fun a =>
  if 100 ≤ a ∧ a < 107 then demo_bytes.getD (a - 100) 0
  else if 200 ≤ a ∧ a < 207 then demo_bytes.getD (a - 200) 0
  else if 300 ≤ a ∧ a < 307 then demo_bytes.getD (a - 300) 0
  else if a = 307 then 1
  else if 1100 ≤ a ∧ a < 1107 then demo_bytes.getD (a - 1100) 0
  else if 1200 ≤ a ∧ a < 1207 then demo_bytes.getD (a - 1200) 0
  else 0

/-- A Linux build whose readonly data lies strictly between the addresses
1000 and 2000, with the default intern limit. -/
def demo_cfg : Config := Config.default 1000 2000

/-- A state at process start, in Single mode: no table, the allocator's break
at 4096. -/
def demo_state : State := ⟨demo_mem, fun _ => ⟨0, 0⟩, 4096, none, false⟩

/-- The state `demo_state` after the event loop has started (Shared mode). -/
def demo_state_shared : State := { demo_state with strm_event_loop_started := true }

/-- The state `demo_state` with a scratch buffer at 500 whose eight bytes all
hold 255. -/
def demo_state_scratch : State := { demo_state with mem := memset demo_mem 500 255 8 }

/-- Three values built in Shared mode, one call after the other: first
`strm_str_new` of the readonly "streem!" at 1100 (a ForeignRef). -/
def demo_r1 : Nat × State := strm_str_new demo_cfg demo_state_shared 1100 7

/-- Second, `strm_str_new` of the "streem!" at 100, which is not readonly
data (an OwnedBuffer). -/
def demo_r2 : Nat × State := strm_str_new demo_cfg demo_r1.2 100 7

/-- Third, `strm_str_new` of the readonly "streem!" at 1200 (another
ForeignRef). -/
def demo_r3 : Nat × State := strm_str_new demo_cfg demo_r2.2 1200 7

/-! ## Words, bytes and tags -/

theorem tag_values :
    STRM_TAG_STRING_I = 0xFFF6 * 2 ^ 48 ∧ STRM_TAG_STRING_6 = 0xFFF7 * 2 ^ 48 ∧
    STRM_TAG_STRING_O = 0xFFF8 * 2 ^ 48 ∧ STRM_TAG_STRING_F = 0xFFF9 * 2 ^ 48 := by
  decide

theorem strm_value_tag_add (c x : Nat) (hc : c < 2 ^ 16) (hx : x < 2 ^ 48) :
    strm_value_tag (c * 2 ^ 48 + x) = c * 2 ^ 48 := by
  unfold strm_value_tag
  omega

theorem strm_value_val_add (c x : Nat) (hx : x < 2 ^ 48) :
    strm_value_val (c * 2 ^ 48 + x) = x := by
  unfold strm_value_val
  omega

theorem to_char_val (b : Byte) : to_char b.val = b := by
  apply Fin.ext
  simp [to_char, Nat.mod_eq_of_lt b.isLt]

theorem word_of_bytes_lt (bs : List Byte) : word_of_bytes bs < 256 ^ bs.length := by
  induction bs with
  | nil => simp [word_of_bytes]
  | cons b bs ih =>
    have hb := b.isLt
    simp only [word_of_bytes, List.length_cons, pow_succ]
    omega

theorem byte_at_cons_zero (b : Byte) (w : Nat) : byte_at (b.val + 256 * w) 0 = b := by
  apply Fin.ext
  have hb := b.isLt
  simp only [byte_at, to_char, pow_zero, Nat.div_one]
  omega

theorem byte_at_cons_succ (b : Byte) (w i : Nat) :
    byte_at (b.val + 256 * w) (i + 1) = byte_at w i := by
  have hb := b.isLt
  have h : (b.val + 256 * w) / 256 ^ (i + 1) = w / 256 ^ i := by
    have h1 : 256 ^ (i + 1) = 256 * 256 ^ i := by ring
    have h2 : (b.val + 256 * w) / 256 = w := by omega
    rw [h1, ← Nat.div_div_eq_div_mul, h2]
  simp only [byte_at, h]

theorem byte_at_word_of_bytes (bs : List Byte) (k x i : Nat) (hk : bs.length ≤ k) (hi : i < k) :
    byte_at (word_of_bytes bs + 256 ^ k * x) i = bs.getD i 0 := by
  induction bs generalizing k i with
  | nil =>
    apply Fin.ext
    simp only [word_of_bytes, byte_at, to_char, List.getD_nil, zero_add]
    obtain ⟨d, rfl⟩ := Nat.exists_eq_add_of_lt hi
    have : 256 ^ (i + d + 1) * x / 256 ^ i = 256 * (256 ^ d * x) := by
      have : 256 ^ (i + d + 1) * x = 256 ^ i * (256 * (256 ^ d * x)) := by ring
      rw [this, Nat.mul_div_cancel_left _ (by positivity)]
    rw [this]
    simp
  | cons b bs ih =>
    cases k with
    | zero => simp at hk
    | succ k =>
      have e : word_of_bytes (b :: bs) + 256 ^ (k + 1) * x
          = b.val + 256 * (word_of_bytes bs + 256 ^ k * x) := by
        simp only [word_of_bytes]; ring
      rw [e]
      cases i with
      | zero => simp [byte_at_cons_zero]
      | succ i =>
        rw [byte_at_cons_succ, ih k i (by simpa using hk) (by omega)]
        simp

theorem read_bytes_length (m : Memory) (p n : Nat) : (read_bytes m p n).length = n := by
  induction n generalizing p with
  | zero => rfl
  | succ n ih => simp [read_bytes, ih]

theorem read_bytes_getD (m : Memory) (p n i : Nat) (h : i < n) :
    (read_bytes m p n).getD i 0 = m (p + i) := by
  induction n generalizing p i with
  | zero => omega
  | succ n ih =>
    cases i with
    | zero => simp [read_bytes]
    | succ i =>
      simp only [read_bytes, List.getD_cons_succ]
      rw [ih (p + 1) i (by omega)]
      congr 1
      omega

/-! ## `str_new`, case by case -/

theorem tag_I_ne_6 : STRM_TAG_STRING_I ≠ STRM_TAG_STRING_6 := by decide
theorem tag_I_ne_O : STRM_TAG_STRING_I ≠ STRM_TAG_STRING_O := by decide
theorem tag_I_ne_F : STRM_TAG_STRING_I ≠ STRM_TAG_STRING_F := by decide
theorem tag_6_ne_O : STRM_TAG_STRING_6 ≠ STRM_TAG_STRING_O := by decide
theorem tag_6_ne_F : STRM_TAG_STRING_6 ≠ STRM_TAG_STRING_F := by decide
theorem tag_O_ne_F : STRM_TAG_STRING_O ≠ STRM_TAG_STRING_F := by decide

theorem strm_value_tag_I (x : Nat) (hx : x < 2 ^ 48) :
    strm_value_tag (STRM_TAG_STRING_I + x) = STRM_TAG_STRING_I :=
  strm_value_tag_add (0xFFF0 + 6) x (by decide) hx

theorem strm_value_tag_6 (x : Nat) (hx : x < 2 ^ 48) :
    strm_value_tag (STRM_TAG_STRING_6 + x) = STRM_TAG_STRING_6 :=
  strm_value_tag_add (0xFFF0 + 7) x (by decide) hx

theorem strm_value_tag_O (x : Nat) (hx : x < 2 ^ 48) :
    strm_value_tag (STRM_TAG_STRING_O + x) = STRM_TAG_STRING_O :=
  strm_value_tag_add (0xFFF0 + 8) x (by decide) hx

theorem strm_value_tag_F (x : Nat) (hx : x < 2 ^ 48) :
    strm_value_tag (STRM_TAG_STRING_F + x) = STRM_TAG_STRING_F :=
  strm_value_tag_add (0xFFF0 + 9) x (by decide) hx

theorem strm_value_val_lt (x : Nat) : strm_value_val x < 2 ^ 48 :=
  Nat.mod_lt x (by decide)

theorem strm_value_val_of_lt (x : Nat) (hx : x < 2 ^ 48) : strm_value_val x = x :=
  Nat.mod_eq_of_lt hx

theorem strm_value_val_O (x : Nat) (hx : x < 2 ^ 48) :
    strm_value_val (STRM_TAG_STRING_O + x) = x :=
  strm_value_val_add (0xFFF0 + 8) x hx

theorem strm_value_val_F (x : Nat) (hx : x < 2 ^ 48) :
    strm_value_val (STRM_TAG_STRING_F + x) = x :=
  strm_value_val_add (0xFFF0 + 9) x hx

theorem word_of_bytes_lt_payload (bs : List Byte) (h : bs.length ≤ 6) :
    word_of_bytes bs < 2 ^ 48 := by
  have h1 := word_of_bytes_lt bs
  have h2 : 256 ^ bs.length ≤ 256 ^ 6 := Nat.pow_le_pow_right (by decide) h
  have h3 : (256 : Nat) ^ 6 = 2 ^ 48 := by norm_num
  omega

/-- Bytes of a tagged inline word: the tag sits above the six payload bytes. -/
theorem byte_at_tagged (c : Nat) (bs : List Byte) (i : Nat) (h : bs.length ≤ 6) (hi : i < 6) :
    byte_at (STRM_MAKE_TAG c + word_of_bytes bs) i = bs.getD i 0 := by
  have e : STRM_MAKE_TAG c + word_of_bytes bs = word_of_bytes bs + 256 ^ 6 * (0xFFF0 + c) := by
    unfold STRM_MAKE_TAG
    have h3 : (256 : Nat) ^ 6 = 2 ^ 48 := by norm_num
    rw [h3]; ring
  rw [e]
  exact byte_at_word_of_bytes bs 6 _ i h hi

theorem str_new_I (cfg : Config) (st : State) (p n : Nat) (f : Int) (hp : p ≠ 0) (hn : n < 6) :
    str_new cfg st p n f
      = (STRM_TAG_STRING_I + word_of_bytes (to_char n :: read_bytes st.mem p n), st) := by
  have hl : (to_char n :: read_bytes st.mem p n).length ≤ 6 := by
    simp [read_bytes_length]; omega
  simp [str_new, hp, hn, strm_value_val_of_lt _ (word_of_bytes_lt_payload _ hl)]

theorem str_new_6 (cfg : Config) (st : State) (p : Nat) (f : Int) (hp : p ≠ 0) :
    str_new cfg st p 6 f
      = (STRM_TAG_STRING_6 + word_of_bytes (read_bytes st.mem p 6), st) := by
  have hl : (read_bytes st.mem p 6).length ≤ 6 := by
    simp [read_bytes_length]
  simp [str_new, hp, strm_value_val_of_lt _ (word_of_bytes_lt_payload _ hl)]

theorem str_new_F (cfg : Config) (st : State) (p n : Nat) (f : Int) (hp : p ≠ 0) (hn : 6 < n)
    (hf : f ≠ 0 ∨ readonly_data_p cfg.detector p = true) (hb : st.brk < 2 ^ 48) :
    str_new cfg st p n f
      = (STRM_TAG_STRING_F + st.brk,
          set_strm_string { st with brk := st.brk + sizeof_strm_string } st.brk p n) := by
  have h1 : ¬ n < 6 := by omega
  have h2 : ¬ n = 6 := by omega
  simp [str_new, hp, h1, h2, hf, malloc, strm_value_val_of_lt _ hb]

theorem str_new_mkbuf_eq (st : State) (p n : Nat) (hb : st.brk < 2 ^ 48) :
    str_new_mkbuf st p n
      = (STRM_TAG_STRING_O + st.brk,
          set_strm_string
            { st with
              brk := st.brk + (sizeof_strm_string + n + 1)
              mem := store
                (if p ≠ 0 then memcpy st.mem (st.brk + sizeof_strm_string) (.mem p) n
                  else memset st.mem (st.brk + sizeof_strm_string) 0 n)
                (st.brk + sizeof_strm_string + n) 0 }
            st.brk (st.brk + sizeof_strm_string) n) := by
  simp [str_new_mkbuf, malloc, strm_value_val_of_lt _ hb]

theorem str_new_O (cfg : Config) (st : State) (p n : Nat) (f : Int) (hp : p ≠ 0) (hn : 6 < n)
    (hf : ¬ (f ≠ 0 ∨ readonly_data_p cfg.detector p = true)) :
    str_new cfg st p n f = str_new_mkbuf st p n := by
  have h1 : ¬ n < 6 := by omega
  have h2 : ¬ n = 6 := by omega
  simp only [str_new, hp, h1, h2, hf, if_false, and_false]

theorem char_to_size_t_small (n : Nat) (h : n < 128) : char_to_size_t (to_char n) = n := by
  have h1 : (to_char n).val = n := by
    simp only [to_char]; omega
  simp [char_to_size_t, h1, h]

theorem strm_str_len_I (st : State) (m : Memory) (p n : Nat) (hn : n < 6) :
    strm_str_len st (STRM_TAG_STRING_I + word_of_bytes (to_char n :: read_bytes m p n)) = n := by
  have hl : (to_char n :: read_bytes m p n).length ≤ 6 := by
    simp [read_bytes_length]; omega
  have ht := strm_value_tag_I _ (word_of_bytes_lt_payload _ hl)
  have hb : byte_at (STRM_TAG_STRING_I + word_of_bytes (to_char n :: read_bytes m p n)) 0
      = to_char n := by
    have := byte_at_tagged 6 (to_char n :: read_bytes m p n) 0 hl (by decide)
    simpa [STRM_TAG_STRING_I] using this
  simp only [strm_str_len, ht, if_true, hb]
  exact char_to_size_t_small n (by omega)

theorem strm_strp_ptr_I (st : State) (m : Memory) (p n : Nat) (hn : n < 6) :
    strm_strp_ptr st (STRM_TAG_STRING_I + word_of_bytes (to_char n :: read_bytes m p n))
      = .val (STRM_TAG_STRING_I + word_of_bytes (to_char n :: read_bytes m p n)) 1 := by
  have hl : (to_char n :: read_bytes m p n).length ≤ 6 := by
    simp [read_bytes_length]; omega
  simp only [strm_strp_ptr, strm_value_tag_I _ (word_of_bytes_lt_payload _ hl), if_true]

theorem byte_at_I (m : Memory) (p n i : Nat) (hn : n < 6) (hi : i < n) :
    byte_at (STRM_TAG_STRING_I + word_of_bytes (to_char n :: read_bytes m p n)) (1 + i)
      = m (p + i) := by
  have hl : (to_char n :: read_bytes m p n).length ≤ 6 := by
    simp [read_bytes_length]; omega
  have := byte_at_tagged 6 (to_char n :: read_bytes m p n) (1 + i) hl (by omega)
  rw [show STRM_MAKE_TAG 6 = STRM_TAG_STRING_I from rfl] at this
  rw [this, Nat.add_comm 1 i, List.getD_cons_succ, read_bytes_getD m p n i hi]

theorem strm_str_len_6 (st : State) (bs : List Byte) (hl : bs.length ≤ 6) :
    strm_str_len st (STRM_TAG_STRING_6 + word_of_bytes bs) = 6 := by
  have ht := strm_value_tag_6 _ (word_of_bytes_lt_payload _ hl)
  simp only [strm_str_len, ht, tag_I_ne_6.symm, if_false, if_true]

theorem strm_strp_ptr_6 (st : State) (bs : List Byte) (hl : bs.length ≤ 6) :
    strm_strp_ptr st (STRM_TAG_STRING_6 + word_of_bytes bs)
      = .val (STRM_TAG_STRING_6 + word_of_bytes bs) 0 := by
  have ht := strm_value_tag_6 _ (word_of_bytes_lt_payload _ hl)
  simp only [strm_strp_ptr, ht, tag_I_ne_6.symm, if_false, if_true]

theorem byte_at_6 (m : Memory) (p i : Nat) (hi : i < 6) :
    byte_at (STRM_TAG_STRING_6 + word_of_bytes (read_bytes m p 6)) i = m (p + i) := by
  have hl : (read_bytes m p 6).length ≤ 6 := by simp [read_bytes_length]
  have := byte_at_tagged 7 (read_bytes m p 6) i hl hi
  rw [show STRM_MAKE_TAG 7 = STRM_TAG_STRING_6 from rfl] at this
  rw [this, read_bytes_getD m p 6 i hi]

theorem strm_str_len_F (st : State) (a : Nat) (ha : a < 2 ^ 48) :
    strm_str_len st (STRM_TAG_STRING_F + a) = (st.heap a).len := by
  simp only [strm_str_len, strm_value_tag_F a ha, tag_I_ne_F.symm, tag_6_ne_F.symm, if_false,
    or_true, if_true, strm_value_val_F a ha]

theorem strm_strp_ptr_F (st : State) (a : Nat) (ha : a < 2 ^ 48) :
    strm_strp_ptr st (STRM_TAG_STRING_F + a) = .mem (st.heap a).ptr := by
  simp only [strm_strp_ptr, strm_value_tag_F a ha, tag_I_ne_F.symm, tag_6_ne_F.symm, if_false,
    or_true, if_true, strm_value_val_F a ha]

theorem strm_str_len_O (st : State) (a : Nat) (ha : a < 2 ^ 48) :
    strm_str_len st (STRM_TAG_STRING_O + a) = (st.heap a).len := by
  simp only [strm_str_len, strm_value_tag_O a ha, tag_I_ne_O.symm, tag_6_ne_O.symm, if_false,
    true_or, if_true, strm_value_val_O a ha]

theorem strm_strp_ptr_O (st : State) (a : Nat) (ha : a < 2 ^ 48) :
    strm_strp_ptr st (STRM_TAG_STRING_O + a) = .mem (st.heap a).ptr := by
  simp only [strm_strp_ptr, strm_value_tag_O a ha, tag_I_ne_O.symm, tag_6_ne_O.symm, if_false,
    true_or, if_true, strm_value_val_O a ha]

/-- Round trip through `str_new` for a present pointer, in every variant. -/
theorem str_new_round_trip (cfg : Config) (st : State) (p n : Nat) (f : Int)
    (hp : p ≠ 0) (hb : st.brk < 2 ^ 48) :
    strm_str_len (str_new cfg st p n f).2 (str_new cfg st p n f).1 = n ∧
    ∀ i, i < n →
      (strm_strp_ptr (str_new cfg st p n f).2 (str_new cfg st p n f).1).load
          (str_new cfg st p n f).2.mem i = st.mem (p + i) := by
  rcases Nat.lt_trichotomy n 6 with hn | hn | hn
  · rw [str_new_I cfg st p n f hp hn]
    refine ⟨strm_str_len_I _ _ _ _ hn, fun i hi => ?_⟩
    rw [strm_strp_ptr_I _ _ _ _ hn]
    exact byte_at_I st.mem p n i hn hi
  · subst hn
    rw [str_new_6 cfg st p f hp]
    have hl : (read_bytes st.mem p 6).length ≤ 6 := by simp [read_bytes_length]
    refine ⟨strm_str_len_6 _ _ hl, fun i hi => ?_⟩
    rw [strm_strp_ptr_6 _ _ hl]
    simpa [CPtr.load] using byte_at_6 st.mem p i hi
  · by_cases hf : f ≠ 0 ∨ readonly_data_p cfg.detector p = true
    · rw [str_new_F cfg st p n f hp hn hf hb]
      refine ⟨?_, fun i _ => ?_⟩
      · rw [strm_str_len_F _ _ hb]; simp [set_strm_string]
      · rw [strm_strp_ptr_F _ _ hb]; simp [set_strm_string, CPtr.load]
    · rw [str_new_O cfg st p n f hp hn hf, str_new_mkbuf_eq st p n hb]
      refine ⟨?_, fun i hi => ?_⟩
      · rw [strm_str_len_O _ _ hb]; simp [set_strm_string]
      · rw [strm_strp_ptr_O _ _ hb]
        have h1 : ¬ (st.brk + sizeof_strm_string + i = st.brk + sizeof_strm_string + n) := by omega
        simp [set_strm_string, CPtr.load, store, memcpy, hp, h1, hi]

/-! ## The table and `str_intern` -/

theorem kh_find_some (m : Memory) (h : Nat) (key : sym_key) (t : khash_sym) (k : Nat)
    (hk : kh_find m h key t = some k) :
    ∃ e, t.get? k = some e ∧ e ∈ t ∧ e.hash = h ∧ sym_eq m e.key key = true := by
  induction t generalizing k with
  | nil => simp [kh_find] at hk
  | cons e es ih =>
    unfold kh_find at hk
    split at hk
    · rename_i hc
      cases hk
      exact ⟨e, rfl, by simp, hc.1, hc.2⟩
    · cases hr : kh_find m h key es with
      | none => simp [hr] at hk
      | some j =>
        simp [hr] at hk
        subst hk
        obtain ⟨e', h1, h2, h3, h4⟩ := ih j hr
        exact ⟨e', by simpa using h1, by simp [h2], h3, h4⟩

theorem kh_modify_append (f : Entry → Entry) (t : khash_sym) (e : Entry) :
    kh_modify f (t ++ [e]) t.length = t ++ [f e] := by
  induction t with
  | nil => rfl
  | cons x xs ih => simp [kh_modify, ih]

theorem sym_eq_iff (m : Memory) (a b : sym_key) :
    sym_eq m a b = true ↔ a.len = b.len ∧ ∀ i, i < a.len → m (a.ptr + i) = m (b.ptr + i) := by
  unfold sym_eq memcmp_eq
  by_cases h : a.len = b.len
  · simp [h, CPtr.load, List.all_eq_true]
  · simp [h]

theorem str_intern_short (cfg : Config) (st : State) (p n : Nat) (hn : n ≤ 6) :
    str_intern cfg st p n = str_new cfg st p n 0 := by
  simp [str_intern, hn]

theorem str_intern_hit (cfg : Config) (st : State) (p n k : Nat) (hn : 6 < n)
    (hk : kh_find st.mem (sym_hash st.mem ⟨p, n⟩) ⟨p, n⟩ (sym_table_or_init st) = some k) :
    str_intern cfg st p n
      = (kh_value (sym_table_or_init st) k,
          { st with sym_table := some (sym_table_or_init st) }) := by
  have h1 : ¬ n ≤ 6 := by omega
  simp [str_intern, h1, kh_put, hk]

theorem str_intern_miss (cfg : Config) (st : State) (p n : Nat) (hn : 6 < n) (hp : p ≠ 0)
    (hb : st.brk < 2 ^ 48)
    (hk : kh_find st.mem (sym_hash st.mem ⟨p, n⟩) ⟨p, n⟩ (sym_table_or_init st) = none) :
    str_intern cfg st p n
      = (STRM_TAG_STRING_F + st.brk,
          { set_strm_string { st with brk := st.brk + sizeof_strm_string } st.brk p n with
            sym_table := some (sym_table_or_init st ++
              [⟨⟨p, n⟩, STRM_TAG_STRING_F + st.brk, sym_hash st.mem ⟨p, n⟩⟩]) }) := by
  have h1 : ¬ n ≤ 6 := by omega
  have hF := str_new_F cfg { st with sym_table := some (sym_table_or_init st ++
      [⟨⟨p, n⟩, 0, sym_hash st.mem ⟨p, n⟩⟩]) } p n 1 hp hn (Or.inl one_ne_zero) hb
  simp only [str_intern, h1, if_false, kh_put, hk, hF, one_ne_zero]
  simp only [kh_modify_append, strm_str_ptr, strm_strp_ptr_F _ _ hb, CPtr.addr, set_strm_string,
    if_true]

/-! ## Frame properties and the table invariant -/

theorem heap_extends_refl (st : State) : heap_extends st st :=
  ⟨Nat.le_refl _, fun _ _ => rfl⟩

theorem entry_ok_of_heap_extends (st st' : State) (e : Entry) (h : heap_extends st st')
    (he : entry_ok st e) : entry_ok st' e := by
  obtain ⟨a, h1, h2, h3, h4, h5⟩ := he
  exact ⟨a, h1, Nat.lt_of_lt_of_le h2 h.1, h3, by rw [h.2 a h2]; exact h4, h5⟩

theorem str_new_mkbuf_frame (st : State) (p n : Nat) :
    (str_new_mkbuf st p n).2.sym_table = st.sym_table ∧
    (str_new_mkbuf st p n).2.strm_event_loop_started = st.strm_event_loop_started ∧
    heap_extends st (str_new_mkbuf st p n).2 := by
  refine ⟨rfl, rfl, ?_, ?_⟩
  · simp [str_new_mkbuf, malloc, set_strm_string]
  · intro a ha
    have : a ≠ st.brk := by omega
    simp [str_new_mkbuf, malloc, set_strm_string, this]

theorem str_new_frame (cfg : Config) (st : State) (p n : Nat) (f : Int) :
    (str_new cfg st p n f).2.sym_table = st.sym_table ∧
    (str_new cfg st p n f).2.strm_event_loop_started = st.strm_event_loop_started ∧
    heap_extends st (str_new cfg st p n f).2 := by
  unfold str_new
  split
  · exact str_new_mkbuf_frame st p n
  · split
    · exact ⟨rfl, rfl, heap_extends_refl st⟩
    · split
      · exact ⟨rfl, rfl, heap_extends_refl st⟩
      · split
        · refine ⟨rfl, rfl, ?_, ?_⟩
          · simp [malloc, set_strm_string]
          · intro a ha
            have : a ≠ st.brk := by omega
            simp [malloc, set_strm_string, this]
        · exact str_new_mkbuf_frame st p n

theorem table_ok_of_frame (st st' : State) (hs : st'.sym_table = st.sym_table)
    (h : heap_extends st st') (ht : table_ok st) : table_ok st' := by
  intro e he
  have : sym_table_or_init st' = sym_table_or_init st := by
    simp [sym_table_or_init, hs]
  rw [this] at he
  exact entry_ok_of_heap_extends st st' e h (ht e he)

/-- The interning step keeps the table invariant and only allocates. -/
theorem str_intern_table_ok (cfg : Config) (st : State) (p n : Nat) (hp : p ≠ 0)
    (hb : st.brk < 2 ^ 48) (ht : table_ok st) :
    table_ok (str_intern cfg st p n).2 ∧ heap_extends st (str_intern cfg st p n).2 := by
  by_cases hn : n ≤ 6
  · rw [str_intern_short cfg st p n hn]
    have hf := str_new_frame cfg st p n 0
    exact ⟨table_ok_of_frame _ _ hf.1 hf.2.2 ht, hf.2.2⟩
  · have hn6 : 6 < n := by omega
    cases hk : kh_find st.mem (sym_hash st.mem ⟨p, n⟩) ⟨p, n⟩ (sym_table_or_init st) with
    | some k =>
      rw [str_intern_hit cfg st p n k hn6 hk]
      refine ⟨?_, heap_extends_refl st⟩
      intro e he
      obtain ⟨a, h1, h2, h3, h4, h5⟩ := ht e (by simpa [sym_table_or_init] using he)
      exact ⟨a, h1, h2, h3, h4, h5⟩
    | none =>
      rw [str_intern_miss cfg st p n hn6 hp hb hk]
      have hx : heap_extends st
          { set_strm_string { st with brk := st.brk + sizeof_strm_string } st.brk p n with
            sym_table := some (sym_table_or_init st ++
              [⟨⟨p, n⟩, STRM_TAG_STRING_F + st.brk, sym_hash st.mem ⟨p, n⟩⟩]) } := by
        refine ⟨by simp [set_strm_string], fun a ha => ?_⟩
        have : a ≠ st.brk := by omega
        simp [set_strm_string, this]
      refine ⟨?_, hx⟩
      intro e he
      simp only [sym_table_or_init, List.mem_append, List.mem_singleton] at he
      rcases he with he | he
      · exact entry_ok_of_heap_extends st _ e hx (ht e he)
      · subst he
        refine ⟨st.brk, hb, ?_, rfl, ?_, hn6, hp⟩
        · simp [set_strm_string, sizeof_strm_string]
        · simp [set_strm_string]

theorem strm_str_new_table_ok (cfg : Config) (st : State) (p n : Nat)
    (hb : st.brk < 2 ^ 48) (ht : table_ok st) :
    table_ok (strm_str_new cfg st p n).2 ∧ heap_extends st (strm_str_new cfg st p n).2 := by
  unfold strm_str_new
  split
  · rename_i h
    exact str_intern_table_ok cfg st p n h.2.1 hb ht
  · have hf := str_new_frame cfg st p n 0
    exact ⟨table_ok_of_frame _ _ hf.1 hf.2.2 ht, hf.2.2⟩

theorem tag_of_not_intern_p (s : Nat) (h1 : strm_string_p s = true)
    (h2 : ¬ strm_str_intern_p s = true) : strm_value_tag s = STRM_TAG_STRING_O := by
  unfold strm_string_p at h1
  unfold strm_str_intern_p at h2
  by_cases a : strm_value_tag s = STRM_TAG_STRING_I
  · simp [a] at h2
  · by_cases b : strm_value_tag s = STRM_TAG_STRING_6
    · simp [a, b] at h2
    · by_cases c : strm_value_tag s = STRM_TAG_STRING_F
      · simp [a, b, c] at h2
      · by_cases d : strm_value_tag s = STRM_TAG_STRING_O
        · exact d
        · simp [a, b, c, d] at h1

theorem strm_str_ptr_of_tag_O (st : State) (s : Nat) (h : strm_value_tag s = STRM_TAG_STRING_O) :
    strm_str_ptr st s = .mem (st.heap (strm_value_val s)).ptr ∧
    strm_str_len st s = (st.heap (strm_value_val s)).len := by
  simp [strm_str_ptr, strm_strp_ptr, strm_str_len, h, tag_I_ne_O.symm, tag_6_ne_O.symm]

theorem strm_str_intern_str_table_ok (cfg : Config) (st : State) (s : Nat)
    (hv : valid_string st s) (hb : st.brk < 2 ^ 48) (ht : table_ok st) :
    table_ok (strm_str_intern_str cfg st s).2 ∧
      heap_extends st (strm_str_intern_str cfg st s).2 := by
  unfold strm_str_intern_str
  split
  · exact ⟨ht, heap_extends_refl st⟩
  · rename_i h
    have htag := tag_of_not_intern_p s hv.1 h
    have hp := hv.2 htag
    rw [(strm_str_ptr_of_tag_O st s htag).1]
    exact str_intern_table_ok cfg st _ _ hp hb ht

/-- The table invariant holds in every reachable state. -/
theorem reachable_table_ok (cfg : Config) (st : State) (h : Reachable cfg st) : table_ok st := by
  induction h with
  | start st h0 =>
    intro e he
    simp [sym_table_or_init, h0, kh_init] at he
  | new st p len _ hb ih => exact (strm_str_new_table_ok cfg st p len hb ih).1
  | intern st p len r _ hb hr ih =>
    unfold strm_str_intern at hr
    split at hr
    · cases hr
    · rename_i hp
      cases hr
      exact (str_intern_table_ok cfg st p len hp hb ih).1
  | intern_str st s _ hb hv ih => exact (strm_str_intern_str_table_ok cfg st s hv hb ih).1
  | write st m _ ih => exact ih
  | alloc st n _ ih =>
    exact table_ok_of_frame st _ rfl ⟨Nat.le_add_right _ _, fun _ _ => rfl⟩ ih
  | loop_started st _ ih => exact ih

/-! ## Round trip (C1) -/

theorem kh_value_of_get (t : khash_sym) (k : Nat) (e : Entry) (h : t.get? k = some e) :
    kh_value t k = e.value := by
  unfold kh_value
  rw [h]

/-- Round trip through `str_intern`, whether it bypasses the table, hits or
misses. -/
theorem str_intern_round_trip (cfg : Config) (st : State) (p n : Nat) (hp : p ≠ 0)
    (hb : st.brk < 2 ^ 48) (ht : table_ok st) :
    strm_str_len (str_intern cfg st p n).2 (str_intern cfg st p n).1 = n ∧
    ∀ i, i < n →
      (strm_strp_ptr (str_intern cfg st p n).2 (str_intern cfg st p n).1).load
          (str_intern cfg st p n).2.mem i = st.mem (p + i) := by
  by_cases hn : n ≤ 6
  · rw [str_intern_short cfg st p n hn]
    exact str_new_round_trip cfg st p n 0 hp hb
  · have hn6 : 6 < n := by omega
    cases hk : kh_find st.mem (sym_hash st.mem ⟨p, n⟩) ⟨p, n⟩ (sym_table_or_init st) with
    | some k =>
      rw [str_intern_hit cfg st p n k hn6 hk]
      obtain ⟨e, h1, h2, _, h4⟩ := kh_find_some _ _ _ _ _ hk
      obtain ⟨a, ha, _, hv, hh, _⟩ := ht e h2
      rw [sym_eq_iff] at h4
      simp only [kh_value_of_get _ _ _ h1, hv]
      refine ⟨?_, fun i hi => ?_⟩
      · rw [strm_str_len_F _ _ ha]
        simp only [hh]
        exact h4.1
      · rw [strm_strp_ptr_F _ _ ha]
        simp only [hh, CPtr.load]
        exact h4.2 i (by rw [h4.1]; exact hi)
    | none =>
      rw [str_intern_miss cfg st p n hn6 hp hb hk]
      refine ⟨?_, fun i _ => ?_⟩
      · rw [strm_str_len_F _ _ hb]; simp [set_strm_string]
      · rw [strm_strp_ptr_F _ _ hb]; simp [set_strm_string, CPtr.load]

/-- C1: round trip.  For every non-null pointer `p` and every length `n`
(0, 1, 5, 6, 7, 64 and 1000 included), while the allocator's break fits the
48-bit payload: for either value of the foreign hint the value built by
`str_new(p, n, foreign)` has `strm_str_len` equal to `n` and the `n` bytes at
`strm_strp_ptr` are the `n` input bytes; and the same holds for
`strm_str_new(p, n)` in either mode and in every reachable state of the
intern table, a table hit included. -/
theorem C1_round_trip (cfg : Config) (st : State) (p n : Nat) (hp : p ≠ 0)
    (hb : st.brk < 2 ^ 48) :
    (∀ foreign : Int,
      strm_str_len (str_new cfg st p n foreign).2 (str_new cfg st p n foreign).1 = n ∧
      ∀ i, i < n →
        (strm_strp_ptr (str_new cfg st p n foreign).2 (str_new cfg st p n foreign).1).load
            (str_new cfg st p n foreign).2.mem i = st.mem (p + i)) ∧
    (Reachable cfg st →
      strm_str_len (strm_str_new cfg st p n).2 (strm_str_new cfg st p n).1 = n ∧
      ∀ i, i < n →
        (strm_strp_ptr (strm_str_new cfg st p n).2 (strm_str_new cfg st p n).1).load
            (strm_str_new cfg st p n).2.mem i = st.mem (p + i)) := by
  refine ⟨fun f => str_new_round_trip cfg st p n f hp hb, fun hr => ?_⟩
  unfold strm_str_new
  split
  · exact str_intern_round_trip cfg st p n hp hb (reachable_table_ok cfg st hr)
  · exact str_new_round_trip cfg st p n 0 hp hb

/-- Witness of C1: "streem!" at 200, in the state reached from process start
by interning the equal bytes at 100 (so the call is served by a table hit). -/
theorem C1_round_trip_witness :
    (200 ≠ 0 ∧ (str_intern demo_cfg demo_state 100 7).2.brk < 2 ^ 48 ∧
      Reachable demo_cfg (str_intern demo_cfg demo_state 100 7).2) ∧
    strm_str_len (strm_str_new demo_cfg (str_intern demo_cfg demo_state 100 7).2 200 7).2
      (strm_str_new demo_cfg (str_intern demo_cfg demo_state 100 7).2 200 7).1 = 7 :=
  have hr : Reachable demo_cfg (str_intern demo_cfg demo_state 100 7).2 :=
    Reachable.intern demo_state 100 7 _ (Reachable.start _ rfl) (by decide) rfl
  ⟨⟨by decide, by decide, hr⟩,
    ((C1_round_trip demo_cfg (str_intern demo_cfg demo_state 100 7).2 200 7 (by decide)
      (by decide)).2 hr).1⟩

/-! ## Equality of constructed values (C2) -/

theorem str_new_mkbuf_mem_frame (st : State) (p n a : Nat) (ha : a < st.brk) :
    (str_new_mkbuf st p n).2.mem a = st.mem a := by
  have h1 : ¬ (a = st.brk + sizeof_strm_string + n) := by omega
  have h2 : ¬ (st.brk + sizeof_strm_string ≤ a) := by omega
  by_cases hp : p = 0 <;>
    simp [str_new_mkbuf, malloc, set_strm_string, store, memcpy, memset, hp, h1, h2]

theorem str_new_mem_frame (cfg : Config) (st : State) (p n : Nat) (f : Int) (a : Nat)
    (ha : a < st.brk) : (str_new cfg st p n f).2.mem a = st.mem a := by
  unfold str_new
  split
  · exact str_new_mkbuf_mem_frame st p n a ha
  · split
    · rfl
    · split
      · rfl
      · split
        · rfl
        · exact str_new_mkbuf_mem_frame st p n a ha

theorem str_intern_mem_eq (cfg : Config) (st : State) (p n : Nat) (hp : p ≠ 0) :
    (str_intern cfg st p n).2.mem = st.mem := by
  unfold str_intern
  split
  · rename_i hn
    rcases Nat.lt_or_ge n 6 with h | h
    · rw [str_new_I cfg st p n 0 hp h]
    · have : n = 6 := by omega
      subst this
      rw [str_new_6 cfg st p 0 hp]
  · rename_i hn
    simp only [kh_put]
    split
    · rfl
    · have h1 : ¬ n < 6 := by omega
      have h2 : ¬ n = 6 := by omega
      simp [str_new, hp, h1, h2, malloc, set_strm_string]

theorem strm_str_new_mem_frame (cfg : Config) (st : State) (p n a : Nat) (ha : a < st.brk) :
    (strm_str_new cfg st p n).2.mem a = st.mem a := by
  unfold strm_str_new
  split
  · rename_i h
    rw [str_intern_mem_eq cfg st p n h.2.1]
  · exact str_new_mem_frame cfg st p n 0 a ha

theorem str_new_mkbuf_tag (st : State) (p n : Nat) :
    strm_value_tag (str_new_mkbuf st p n).1 = STRM_TAG_STRING_O := by
  simp only [str_new_mkbuf, malloc]
  exact strm_value_tag_O _ (strm_value_val_lt _)

/-- The tag `str_new` gives to a present pointer. -/
theorem str_new_tag (cfg : Config) (st : State) (p n : Nat) (f : Int) (hp : p ≠ 0) :
    strm_value_tag (str_new cfg st p n f).1 =
      if n < 6 then STRM_TAG_STRING_I
      else if n = 6 then STRM_TAG_STRING_6
      else if f ≠ 0 ∨ readonly_data_p cfg.detector p = true then STRM_TAG_STRING_F
      else STRM_TAG_STRING_O := by
  unfold str_new
  rw [if_neg hp]
  split
  · exact strm_value_tag_I _ (strm_value_val_lt _)
  · split
    · exact strm_value_tag_6 _ (strm_value_val_lt _)
    · split
      · rename_i h
        rw [if_pos h.2]
        exact strm_value_tag_F _ (strm_value_val_lt _)
      · rename_i h
        have : ¬ (f ≠ 0 ∨ readonly_data_p cfg.detector p = true) := fun h' => h ⟨hp, h'⟩
        rw [if_neg this]
        exact str_new_mkbuf_tag st p n

theorem strm_str_new_single (cfg : Config) (st : State) (p n : Nat)
    (hs : st.strm_event_loop_started = false) (hp : p ≠ 0)
    (hn : n < cfg.STRM_STR_INTERN_LIMIT ∨ readonly_data_p cfg.detector p = true) :
    strm_str_new cfg st p n = str_intern cfg st p n := by
  unfold strm_str_new
  rw [if_pos ⟨hs, hp, hn⟩]

theorem strm_str_new_shared (cfg : Config) (st : State) (p n : Nat)
    (hs : st.strm_event_loop_started = true) :
    strm_str_new cfg st p n = str_new cfg st p n 0 := by
  unfold strm_str_new
  rw [if_neg (by simp [hs])]

/-- C4: variant selection.  For every non-null `p`, the value
`str_new(p, len, foreign)` is tagged `STRM_TAG_STRING_I` when `len < 6`,
`STRM_TAG_STRING_6` when `len = 6`, and for `len > 6` it is tagged
`STRM_TAG_STRING_F` exactly when `foreign` is non-zero or `readonly_data_p(p)`
holds and `STRM_TAG_STRING_O` otherwise. -/
theorem C4_variant_selection (cfg : Config) (st : State) (p len : Nat) (foreign : Int)
    (hp : p ≠ 0) :
    (len < 6 → strm_value_tag (str_new cfg st p len foreign).1 = STRM_TAG_STRING_I) ∧
    (len = 6 → strm_value_tag (str_new cfg st p len foreign).1 = STRM_TAG_STRING_6) ∧
    (6 < len →
      (strm_value_tag (str_new cfg st p len foreign).1 = STRM_TAG_STRING_F ↔
        (foreign ≠ 0 ∨ readonly_data_p cfg.detector p = true)) ∧
      (¬ (foreign ≠ 0 ∨ readonly_data_p cfg.detector p = true) →
        strm_value_tag (str_new cfg st p len foreign).1 = STRM_TAG_STRING_O)) := by
  rw [str_new_tag cfg st p len foreign hp]
  refine ⟨fun h => by rw [if_pos h], fun h => ?_, fun h => ?_⟩
  · rw [if_neg (by omega), if_pos h]
  · rw [if_neg (by omega), if_neg (by omega)]
    by_cases hf : foreign ≠ 0 ∨ readonly_data_p cfg.detector p = true
    · rw [if_pos hf]
      exact ⟨⟨fun _ => hf, fun _ => rfl⟩, fun h' => absurd hf h'⟩
    · rw [if_neg hf]
      exact ⟨⟨fun h' => absurd h' tag_O_ne_F, fun h' => absurd h' hf⟩, fun _ => rfl⟩

/-- Witness of C4: the seven bytes at 100 with the foreign hint set. -/
theorem C4_variant_selection_witness :
    (100 ≠ 0) ∧ strm_value_tag (str_new demo_cfg demo_state 100 7 1).1 = STRM_TAG_STRING_F :=
  ⟨by decide,
    ((C4_variant_selection demo_cfg demo_state 100 7 1 (by decide)).2.2 (by decide)).1.mpr
      (Or.inl (by decide))⟩

/-! ## Canonical identity of interning (C3) -/

/-- C3 (the code at the failing input): the buffers at 100 and 300 hold the
same seven bytes and are `sym_eq`, but the byte after the first is 0 and the
byte after the second is 1, so `sym_hash` differs; `strm_str_intern` of the
first and then of the second returns two different words, and the second
call adds a second entry to the table. -/
theorem C3_intern_identity_fails :
    read_bytes demo_state.mem 100 7 = read_bytes demo_state.mem 300 7 ∧
    sym_eq demo_state.mem ⟨100, 7⟩ ⟨300, 7⟩ = true ∧
    sym_hash demo_state.mem ⟨100, 7⟩ ≠ sym_hash demo_state.mem ⟨300, 7⟩ ∧
    (strm_str_intern demo_cfg demo_state 100 7).map Prod.fst
      = some (str_intern demo_cfg demo_state 100 7).1 ∧
    (strm_str_intern demo_cfg (str_intern demo_cfg demo_state 100 7).2 300 7).map Prod.fst
      = some (str_intern demo_cfg (str_intern demo_cfg demo_state 100 7).2 300 7).1 ∧
    (str_intern demo_cfg demo_state 100 7).1
      ≠ (str_intern demo_cfg (str_intern demo_cfg demo_state 100 7).2 300 7).1 ∧
    (sym_table_or_init (str_intern demo_cfg demo_state 100 7).2).length = 1 ∧
    (sym_table_or_init
      (str_intern demo_cfg (str_intern demo_cfg demo_state 100 7).2 300 7).2).length = 2 := by
  refine ⟨by decide, by decide, by decide, rfl, rfl, by decide, by decide, by decide⟩

/-! ## `strm_strp_cstr` (C5, C6) -/

/-- C5 (the code at the failing input): for the five bytes "stree" at 100,
`strm_strp_cstr` returns the scratch buffer, and the five bytes there are the
length byte 5 followed by "stre", not the input bytes. -/
theorem C5_cstr_length_5_wrong_bytes :
    strm_str_len demo_state (str_new demo_cfg demo_state 100 5 0).1 = 5 ∧
    read_bytes demo_state.mem 100 5 = [115, 116, 114, 101, 101] ∧
    (strm_strp_cstr demo_state (str_new demo_cfg demo_state 100 5 0).1 500).1 = .mem 500 ∧
    (List.range 5).map
        ((strm_strp_cstr demo_state (str_new demo_cfg demo_state 100 5 0).1 500).1.load
          (strm_strp_cstr demo_state (str_new demo_cfg demo_state 100 5 0).1 500).2)
      = [5, 115, 116, 114, 101] ∧
    (List.range 5).map
        ((strm_strp_ptr demo_state (str_new demo_cfg demo_state 100 5 0).1).load demo_state.mem)
      = [115, 116, 114, 101, 101] := by
  refine ⟨by decide, by decide, by decide, by decide, by decide⟩

/-- C6 (the code at the failing input): with a scratch buffer that held the
byte 255 throughout, the byte at offset 6 of `strm_strp_cstr` of the six-byte
value "streem", and the byte at offset 5 of that of the five-byte value
"stree", is 255 and not the terminator 0. -/
theorem C6_cstr_not_terminated :
    strm_value_tag (str_new demo_cfg demo_state_scratch 100 6 0).1 = STRM_TAG_STRING_6 ∧
    (strm_strp_cstr demo_state_scratch (str_new demo_cfg demo_state_scratch 100 6 0).1 500).1.load
        (strm_strp_cstr demo_state_scratch (str_new demo_cfg demo_state_scratch 100 6 0).1 500).2 6
      = 255 ∧
    strm_value_tag (str_new demo_cfg demo_state_scratch 100 5 0).1 = STRM_TAG_STRING_I ∧
    (strm_strp_cstr demo_state_scratch (str_new demo_cfg demo_state_scratch 100 5 0).1 500).1.load
        (strm_strp_cstr demo_state_scratch (str_new demo_cfg demo_state_scratch 100 5 0).1 500).2 5
      = 255 := by
  refine ⟨by decide, by decide, by decide, by decide⟩

/-! ## An intern miss (C7) -/

/-- C8: definition of equality.  For all words `a` and `b`, `strm_str_eq(a, b)`
is TRUE if and only if `a` and `b` are the same word, or they are not both
ForeignRef and have equal length and equal bytes; in particular two distinct
ForeignRef values compare unequal whatever their lengths and bytes. -/
theorem C8_equality_definition (st : State) (a b : Nat) :
    (strm_str_eq st a b = true ↔
      (a = b ∨
        (¬ (strm_value_tag a = STRM_TAG_STRING_F ∧ strm_value_tag b = STRM_TAG_STRING_F) ∧
          strm_str_len st a = strm_str_len st b ∧
          ∀ i, i < strm_str_len st a →
            (strm_str_ptr st a).load st.mem i = (strm_str_ptr st b).load st.mem i))) ∧
    (a ≠ b → strm_value_tag a = STRM_TAG_STRING_F → strm_value_tag b = STRM_TAG_STRING_F →
      strm_str_eq st a b = false) := by
  have hc : memcmp_eq st.mem (strm_str_ptr st a) (strm_str_ptr st b) (strm_str_len st a) = true ↔
      ∀ i, i < strm_str_len st a →
        (strm_str_ptr st a).load st.mem i = (strm_str_ptr st b).load st.mem i := by
    simp [memcmp_eq, List.all_eq_true]
  constructor
  · unfold strm_str_eq
    by_cases e : a = b
    · simp [e]
    · rw [if_neg e]
      by_cases hF : strm_value_tag a = STRM_TAG_STRING_F ∧ strm_value_tag b = STRM_TAG_STRING_F
      · rw [if_pos hF]
        simp [e, hF]
      · rw [if_neg hF]
        by_cases hl : strm_str_len st a = strm_str_len st b
        · rw [if_neg (fun h => h hl)]
          by_cases hm : memcmp_eq st.mem (strm_str_ptr st a) (strm_str_ptr st b)
              (strm_str_len st a) = true
          · rw [if_pos hm]
            simp only [true_iff]
            exact Or.inr ⟨hF, hl, hc.mp hm⟩
          · rw [if_neg hm]
            simp only [Bool.false_eq_true, false_iff, not_or, not_and]
            exact ⟨e, fun _ _ h => hm (hc.mpr h)⟩
        · rw [if_pos hl]
          simp only [Bool.false_eq_true, false_iff, not_or, not_and]
          exact ⟨e, fun _ h => absurd h hl⟩
  · intro e ha hb
    unfold strm_str_eq
    rw [if_neg e, if_pos ⟨ha, hb⟩]

/-- Witness of C8: the two ForeignRef values built in Shared mode from the
readonly buffers at 1100 and 1200 are distinct words, so they compare
unequal. -/
theorem C8_equality_definition_witness :
    ((strm_str_new demo_cfg demo_state_shared 1100 7).1
        ≠ (strm_str_new demo_cfg (strm_str_new demo_cfg demo_state_shared 1100 7).2 1200 7).1 ∧
      strm_value_tag (strm_str_new demo_cfg demo_state_shared 1100 7).1 = STRM_TAG_STRING_F ∧
      strm_value_tag
        (strm_str_new demo_cfg (strm_str_new demo_cfg demo_state_shared 1100 7).2 1200 7).1
          = STRM_TAG_STRING_F) ∧
    strm_str_eq (strm_str_new demo_cfg (strm_str_new demo_cfg demo_state_shared 1100 7).2 1200 7).2
      (strm_str_new demo_cfg demo_state_shared 1100 7).1
      (strm_str_new demo_cfg (strm_str_new demo_cfg demo_state_shared 1100 7).2 1200 7).1
        = false :=
  ⟨⟨by decide, by decide, by decide⟩,
    (C8_equality_definition _ _ _).2 (by decide) (by decide) (by decide)⟩

/-! ## Interning a value (C9, C10) -/

theorem strm_str_intern_p_of_tag (s : Nat)
    (h : strm_value_tag s = STRM_TAG_STRING_I ∨ strm_value_tag s = STRM_TAG_STRING_6 ∨
      strm_value_tag s = STRM_TAG_STRING_F) : strm_str_intern_p s = true := by
  unfold strm_str_intern_p
  rcases h with h | h | h
  · rw [if_pos h]
  · rw [if_neg (by rw [h]; exact tag_I_ne_6.symm), if_pos h]
  · rw [if_neg (by rw [h]; exact tag_I_ne_F.symm), if_neg (by rw [h]; exact tag_6_ne_F.symm),
      if_pos h]

/-- Whatever `str_intern` returns for a present pointer is canonical. -/
theorem str_intern_intern_p (cfg : Config) (st : State) (p n : Nat) (hp : p ≠ 0)
    (ht : table_ok st) : strm_str_intern_p (str_intern cfg st p n).1 = true := by
  apply strm_str_intern_p_of_tag
  by_cases hn : n ≤ 6
  · rw [str_intern_short cfg st p n hn, str_new_tag cfg st p n 0 hp]
    by_cases h1 : n < 6
    · rw [if_pos h1]; exact Or.inl rfl
    · rw [if_neg h1, if_pos (by omega)]; exact Or.inr (Or.inl rfl)
  · right; right
    cases hk : kh_find st.mem (sym_hash st.mem ⟨p, n⟩) ⟨p, n⟩ (sym_table_or_init st) with
    | some k =>
      rw [str_intern_hit cfg st p n k (by omega) hk]
      obtain ⟨e, h1, h2, _, _⟩ := kh_find_some _ _ _ _ _ hk
      obtain ⟨a, ha, _, hv, _⟩ := ht e h2
      simp only [kh_value_of_get _ _ _ h1, hv]
      exact strm_value_tag_F a ha
    | none =>
      simp only [str_intern, hn, if_false, kh_put, hk, one_ne_zero]
      rw [str_new_tag cfg _ p n 1 hp, if_neg (by omega), if_neg (by omega),
        if_pos (Or.inl one_ne_zero)]

/-- C9: `strm_str_intern_str` preserves content and leaves canonical values
alone.  For every valid string value `s`, in every reachable state and either
mode, the result has the same length and bytes as `s`; and when `s` is
InlineShort, InlineSix or ForeignRef, `strm_str_intern_p(s)` is TRUE, the
result is the word `s` itself and the state, the intern table included, is
unchanged. -/
theorem C9_intern_str_preserves (cfg : Config) (st : State) (s : Nat)
    (hr : Reachable cfg st) (hv : valid_string st s) (hb : st.brk < 2 ^ 48) :
    (strm_str_len (strm_str_intern_str cfg st s).2 (strm_str_intern_str cfg st s).1
        = strm_str_len st s ∧
      ∀ i, i < strm_str_len st s →
        (strm_strp_ptr (strm_str_intern_str cfg st s).2 (strm_str_intern_str cfg st s).1).load
            (strm_str_intern_str cfg st s).2.mem i
          = (strm_strp_ptr st s).load st.mem i) ∧
    (strm_value_tag s = STRM_TAG_STRING_I ∨ strm_value_tag s = STRM_TAG_STRING_6 ∨
        strm_value_tag s = STRM_TAG_STRING_F →
      strm_str_intern_p s = true ∧ strm_str_intern_str cfg st s = (s, st)) := by
  constructor
  · by_cases hi : strm_str_intern_p s = true
    · simp [strm_str_intern_str, hi]
    · have htag := tag_of_not_intern_p s hv.1 hi
      have hp := hv.2 htag
      have hd := strm_str_ptr_of_tag_O st s htag
      have e : strm_str_intern_str cfg st s
          = str_intern cfg st (st.heap (strm_value_val s)).ptr (st.heap (strm_value_val s)).len := by
        simp only [strm_str_intern_str, hi, if_false, hd.1, hd.2, CPtr.addr]
        rfl
      have h := str_intern_round_trip cfg st _ (st.heap (strm_value_val s)).len hp hb
        (reachable_table_ok cfg st hr)
      rw [e, hd.2]
      refine ⟨h.1, fun i hi => ?_⟩
      rw [h.2 i hi]
      have : strm_strp_ptr st s = .mem (st.heap (strm_value_val s)).ptr := hd.1
      rw [this]
      rfl
  · intro h
    have hi := strm_str_intern_p_of_tag s h
    exact ⟨hi, by simp only [strm_str_intern_str, hi, if_true]⟩

/-- C10: interning is idempotent.  For every valid string value `s` of any
variant and length, in every reachable state and either mode, the result `r`
of `strm_str_intern_str(s)` satisfies `strm_str_intern_p(r)`, and
`strm_str_intern_str(r)` returns `r` and leaves the state, the intern table
included, as it was. -/
theorem C10_intern_idempotent (cfg : Config) (st : State) (s : Nat)
    (hr : Reachable cfg st) (hv : valid_string st s) :
    strm_str_intern_p (strm_str_intern_str cfg st s).1 = true ∧
    strm_str_intern_str cfg (strm_str_intern_str cfg st s).2 (strm_str_intern_str cfg st s).1
      = ((strm_str_intern_str cfg st s).1, (strm_str_intern_str cfg st s).2) := by
  have h : strm_str_intern_p (strm_str_intern_str cfg st s).1 = true := by
    by_cases hi : strm_str_intern_p s = true
    · simp only [strm_str_intern_str, hi, if_true]
    · have htag := tag_of_not_intern_p s hv.1 hi
      have hp := hv.2 htag
      have hd := strm_str_ptr_of_tag_O st s htag
      simp only [strm_str_intern_str, hi, if_false, hd.1, CPtr.addr]
      exact str_intern_intern_p cfg st _ _ hp (reachable_table_ok cfg st hr)
  refine ⟨h, ?_⟩
  generalize strm_str_intern_str cfg st s = r at h
  simp only [strm_str_intern_str, h, if_true]

/-- Witness of C9: the OwnedBuffer value built in Shared mode from the seven
bytes at 100, interned in the state that follows. -/
theorem C9_intern_str_preserves_witness :
    (Reachable demo_cfg (strm_str_new demo_cfg demo_state_shared 100 7).2 ∧
      valid_string (strm_str_new demo_cfg demo_state_shared 100 7).2
        (strm_str_new demo_cfg demo_state_shared 100 7).1 ∧
      (strm_str_new demo_cfg demo_state_shared 100 7).2.brk < 2 ^ 48) ∧
    strm_str_len
        (strm_str_intern_str demo_cfg (strm_str_new demo_cfg demo_state_shared 100 7).2
          (strm_str_new demo_cfg demo_state_shared 100 7).1).2
        (strm_str_intern_str demo_cfg (strm_str_new demo_cfg demo_state_shared 100 7).2
          (strm_str_new demo_cfg demo_state_shared 100 7).1).1
      = strm_str_len (strm_str_new demo_cfg demo_state_shared 100 7).2
          (strm_str_new demo_cfg demo_state_shared 100 7).1 :=
  have hr : Reachable demo_cfg (strm_str_new demo_cfg demo_state_shared 100 7).2 :=
    Reachable.new demo_state_shared 100 7 (Reachable.start _ rfl) (by decide)
  have hv : valid_string (strm_str_new demo_cfg demo_state_shared 100 7).2
      (strm_str_new demo_cfg demo_state_shared 100 7).1 := by
    unfold valid_string; decide
  ⟨⟨hr, hv, by decide⟩,
    (C9_intern_str_preserves demo_cfg _ _ hr hv (by decide)).1.1⟩

/-- Witness of C10: the OwnedBuffer value of length 3 built from an absent
pointer, interned in the state that follows. -/
theorem C10_intern_idempotent_witness :
    (Reachable demo_cfg (strm_str_new demo_cfg demo_state 0 3).2 ∧
      valid_string (strm_str_new demo_cfg demo_state 0 3).2
        (strm_str_new demo_cfg demo_state 0 3).1 ∧
      strm_value_tag (strm_str_new demo_cfg demo_state 0 3).1 = STRM_TAG_STRING_O ∧
      strm_str_len (strm_str_new demo_cfg demo_state 0 3).2
        (strm_str_new demo_cfg demo_state 0 3).1 = 3) ∧
    strm_str_intern_p
      (strm_str_intern_str demo_cfg (strm_str_new demo_cfg demo_state 0 3).2
        (strm_str_new demo_cfg demo_state 0 3).1).1 = true :=
  have hr : Reachable demo_cfg (strm_str_new demo_cfg demo_state 0 3).2 :=
    Reachable.new demo_state 0 3 (Reachable.start _ rfl) (by decide)
  have hv : valid_string (strm_str_new demo_cfg demo_state 0 3).2
      (strm_str_new demo_cfg demo_state 0 3).1 := by
    unfold valid_string; decide
  ⟨⟨hr, hv, by decide, by decide⟩, (C10_intern_idempotent demo_cfg _ _ hr hv).1⟩

/-! ## Short strings bypass the table (C11) -/

theorem str_new_inline_state (cfg : Config) (st : State) (p n : Nat) (f : Int) (hp : p ≠ 0)
    (hn : n ≤ 6) : (str_new cfg st p n f).2 = st := by
  rcases Nat.lt_or_ge n 6 with h | h
  · rw [str_new_I cfg st p n f hp h]
  · have : n = 6 := by omega
    subst this
    rw [str_new_6 cfg st p f hp]

/-- C11: short strings bypass the table.  For every non-null `p` and every
`len <= 6`, in either mode, `strm_str_intern(p, len)` returns exactly the
word `str_new(p, len, 0)`, an inline value for which `strm_str_intern_p` is
TRUE, and the state is left exactly as it was: the intern table is not
created if absent and no entry is added or changed. -/
theorem C11_short_bypass (cfg : Config) (st : State) (p len : Nat) (hp : p ≠ 0)
    (hlen : len ≤ 6) :
    strm_str_intern cfg st p len = some ((str_new cfg st p len 0).1, st) ∧
    (strm_value_tag (str_new cfg st p len 0).1 = STRM_TAG_STRING_I ∨
      strm_value_tag (str_new cfg st p len 0).1 = STRM_TAG_STRING_6) ∧
    strm_str_intern_p (str_new cfg st p len 0).1 = true := by
  have hs := str_new_inline_state cfg st p len 0 hp hlen
  have ht : strm_value_tag (str_new cfg st p len 0).1 = STRM_TAG_STRING_I ∨
      strm_value_tag (str_new cfg st p len 0).1 = STRM_TAG_STRING_6 := by
    rw [str_new_tag cfg st p len 0 hp]
    by_cases h1 : len < 6
    · rw [if_pos h1]; exact Or.inl rfl
    · rw [if_neg h1, if_pos (by omega)]; exact Or.inr rfl
  refine ⟨?_, ht, ?_⟩
  · simp only [strm_str_intern, hp, if_false, str_intern_short cfg st p len hlen]
    congr 1
    exact Prod.ext rfl hs
  · apply strm_str_intern_p_of_tag
    rcases ht with h | h
    · exact Or.inl h
    · exact Or.inr (Or.inl h)

/-- Witness of C11: the six bytes "streem" at 100, in Shared mode with no
table. -/
theorem C11_short_bypass_witness :
    (100 ≠ 0 ∧ 6 ≤ 6) ∧
    strm_str_intern demo_cfg demo_state_shared 100 6
      = some ((str_new demo_cfg demo_state_shared 100 6 0).1, demo_state_shared) :=
  ⟨⟨by decide, by decide⟩,
    (C11_short_bypass demo_cfg demo_state_shared 100 6 (by decide) (by decide)).1⟩

/-! ## Auto-intern policy (C12) -/

theorem str_new_mkbuf_word_indep (st : State) (t : Option khash_sym) (p n : Nat) :
    (str_new_mkbuf { st with sym_table := t } p n).1 = (str_new_mkbuf st p n).1 := rfl

theorem str_new_word_indep (cfg : Config) (st : State) (t : Option khash_sym) (p n : Nat)
    (f : Int) :
    (str_new cfg { st with sym_table := t } p n f).1 = (str_new cfg st p n f).1 := by
  unfold str_new
  split
  · rfl
  · split
    · rfl
    · split
      · rfl
      · split
        · rfl
        · rfl

/-- C12: auto-intern policy.  In Single mode, for every non-null `p` and every
`len` below `STRM_STR_INTERN_LIMIT` (64 in the default configuration, so
`len = 63` is interned), `strm_str_new(p, len)` is `str_intern(p, len)`:
the same word and the same resulting state.  In Shared mode, for every `p`
and `len`, `strm_str_new(p, len)` is `str_new(p, len, 0)`; it leaves the
intern table as it was and returns the same word whatever the table
holds. -/
theorem C12_auto_intern_policy (cfg : Config) (st : State) (p len : Nat) :
    (st.strm_event_loop_started = false → p ≠ 0 → len < cfg.STRM_STR_INTERN_LIMIT →
      strm_str_new cfg st p len = str_intern cfg st p len) ∧
    (st.strm_event_loop_started = true →
      strm_str_new cfg st p len = str_new cfg st p len 0 ∧
      (strm_str_new cfg st p len).2.sym_table = st.sym_table ∧
      ∀ t, (strm_str_new cfg { st with sym_table := t } p len).1
        = (strm_str_new cfg st p len).1) ∧
    (∀ etext init_array_start,
      (Config.default etext init_array_start).STRM_STR_INTERN_LIMIT = 64) := by
  refine ⟨fun hs hp hl => strm_str_new_single cfg st p len hs hp (Or.inl hl), fun hs => ?_,
    fun _ _ => rfl⟩
  have e := strm_str_new_shared cfg st p len hs
  refine ⟨e, ?_, fun t => ?_⟩
  · rw [e]; exact (str_new_frame cfg st p len 0).1
  · rw [e, strm_str_new_shared cfg { st with sym_table := t } p len hs]
    exact str_new_word_indep cfg st t p len 0

/-- Witness of C12: in Single mode a 63-byte range at 100 goes through
`str_intern`; in Shared mode the seven bytes at 100 go through `str_new`. -/
theorem C12_auto_intern_policy_witness :
    (demo_state.strm_event_loop_started = false ∧ 100 ≠ 0 ∧
      63 < demo_cfg.STRM_STR_INTERN_LIMIT ∧ demo_state_shared.strm_event_loop_started = true) ∧
    strm_str_new demo_cfg demo_state 100 63 = str_intern demo_cfg demo_state 100 63 ∧
    strm_str_new demo_cfg demo_state_shared 100 7 = str_new demo_cfg demo_state_shared 100 7 0 :=
  ⟨⟨rfl, by decide, by decide, rfl⟩,
    (C12_auto_intern_policy demo_cfg demo_state 100 63).1 rfl (by decide) (by decide),
    ((C12_auto_intern_policy demo_cfg demo_state_shared 100 7).2.1 rfl).1⟩

/-! ## Absent pointer (C13) -/

theorem kh_put_miss_modify (t : khash_sym) (e : Entry) (f g : Entry → Entry) :
    kh_modify g (kh_modify f (t ++ [e]) t.length) t.length = t ++ [g (f e)] := by
  rw [kh_modify_append]
  exact kh_modify_append g t (f e)

/-- The table after `str_intern` is the table before, with at most one entry
appended. -/
theorem str_intern_append (cfg : Config) (st : State) (p n : Nat) :
    ∃ es : List Entry, es.length ≤ 1 ∧
      sym_table_or_init (str_intern cfg st p n).2 = sym_table_or_init st ++ es := by
  by_cases hn : n ≤ 6
  · rw [str_intern_short cfg st p n hn]
    refine ⟨[], by simp, ?_⟩
    simp [sym_table_or_init, (str_new_frame cfg st p n 0).1]
  · cases hk : kh_find st.mem (sym_hash st.mem ⟨p, n⟩) ⟨p, n⟩ (sym_table_or_init st) with
    | some k =>
      rw [str_intern_hit cfg st p n k (by omega) hk]
      exact ⟨[], by simp, by simp [sym_table_or_init]⟩
    | none =>
      simp only [str_intern, hn, if_false, kh_put, hk, one_ne_zero, kh_put_miss_modify]
      exact ⟨[_], Nat.le_refl 1, rfl⟩

theorem str_intern_mem_frame (cfg : Config) (st : State) (p n a : Nat) (ha : a < st.brk) :
    (str_intern cfg st p n).2.mem a = st.mem a := by
  by_cases hn : n ≤ 6
  · rw [str_intern_short cfg st p n hn]
    exact str_new_mem_frame cfg st p n 0 a ha
  · cases hk : kh_find st.mem (sym_hash st.mem ⟨p, n⟩) ⟨p, n⟩ (sym_table_or_init st) with
    | some k => rw [str_intern_hit cfg st p n k (by omega) hk]
    | none =>
      simp only [str_intern, hn, if_false, kh_put, hk, one_ne_zero]
      exact str_new_mem_frame cfg { st with sym_table := some (sym_table_or_init st ++
        [⟨⟨p, n⟩, 0, sym_hash st.mem ⟨p, n⟩⟩]) } p n 1 a ha

/-- C14: the intern table is append-only.  For every call of `strm_str_new`,
`strm_str_intern` or `strm_str_intern_str`, in either mode, the table after
the call is the table before the call followed by at most one new entry:
every entry present before is still present, in place, with the same key
pointer, key length and value word, and none is removed or replaced.  The
call writes no byte below the allocator's break, so the bytes of every key
that lies in allocated memory are the same after the call. -/
theorem C14_append_only (cfg : Config) (st : State) :
    (∀ p len, ∃ es : List Entry, es.length ≤ 1 ∧
      sym_table_or_init (strm_str_new cfg st p len).2 = sym_table_or_init st ++ es ∧
      ∀ a, a < st.brk → (strm_str_new cfg st p len).2.mem a = st.mem a) ∧
    (∀ p len r, strm_str_intern cfg st p len = some r →
      ∃ es : List Entry, es.length ≤ 1 ∧
        sym_table_or_init r.2 = sym_table_or_init st ++ es ∧
        ∀ a, a < st.brk → r.2.mem a = st.mem a) ∧
    (∀ s, ∃ es : List Entry, es.length ≤ 1 ∧
      sym_table_or_init (strm_str_intern_str cfg st s).2 = sym_table_or_init st ++ es ∧
      ∀ a, a < st.brk → (strm_str_intern_str cfg st s).2.mem a = st.mem a) := by
  refine ⟨fun p len => ?_, fun p len r hr => ?_, fun s => ?_⟩
  · refine (?_ : ∃ es : List Entry, es.length ≤ 1 ∧
        sym_table_or_init (strm_str_new cfg st p len).2 = sym_table_or_init st ++ es).elim
      (fun es h => ⟨es, h.1, h.2, fun a ha => strm_str_new_mem_frame cfg st p len a ha⟩)
    unfold strm_str_new
    split
    · exact str_intern_append cfg st p len
    · refine ⟨[], by simp, ?_⟩
      simp [sym_table_or_init, (str_new_frame cfg st p len 0).1]
  · unfold strm_str_intern at hr
    split at hr
    · cases hr
    · cases hr
      obtain ⟨es, h1, h2⟩ := str_intern_append cfg st p len
      exact ⟨es, h1, h2, fun a ha => str_intern_mem_frame cfg st p len a ha⟩
  · unfold strm_str_intern_str
    split
    · exact ⟨[], by simp, by simp, fun _ _ => rfl⟩
    · obtain ⟨es, h1, h2⟩ := str_intern_append cfg st (strm_str_ptr st s).addr (strm_str_len st s)
      exact ⟨es, h1, h2, fun a ha => str_intern_mem_frame cfg st _ _ a ha⟩

/-- Witness of C14: interning "streem!" at 100 in the empty table appends one
entry; interning the equal bytes at 200 next appends none. -/
theorem C14_append_only_witness :
    (strm_str_intern demo_cfg demo_state 100 7 = some (str_intern demo_cfg demo_state 100 7)) ∧
    (∃ es : List Entry, es.length ≤ 1 ∧
      sym_table_or_init (str_intern demo_cfg demo_state 100 7).2
        = sym_table_or_init demo_state ++ es ∧
      ∀ a, a < demo_state.brk →
        (str_intern demo_cfg demo_state 100 7).2.mem a = demo_state.mem a) ∧
    (sym_table_or_init (str_intern demo_cfg demo_state 100 7).2).length = 1 ∧
    (sym_table_or_init
      (str_intern demo_cfg (str_intern demo_cfg demo_state 100 7).2 200 7).2).length = 1 :=
  ⟨rfl, (C14_append_only demo_cfg demo_state).2.1 100 7 _ rfl, by decide, by decide⟩

/-! ## Detector safety (C15) -/

/-- C15: detector safety.  Under the disabled strategy `readonly_data_p`
answers false for every pointer; under the Mach-O strategy it answers true
only strictly between `get_etext()` and `get_edata()`; under the linker-symbol
strategy only strictly between `_etext` and `__init_array_start`.  Hence for
a fresh heap allocation, whose block starts at the allocator's break, it
answers false at every address of the block under each of the three
strategies, the heap lying at or above the upper boundary. -/
theorem C15_detector_safety :
    (∀ p, readonly_data_p .disabled p = false) ∧
    (∀ get_etext get_edata p,
      readonly_data_p (.macho get_etext get_edata) p = true ↔ get_etext < p ∧ p < get_edata) ∧
    (∀ etext init_array_start p,
      readonly_data_p (.linker etext init_array_start) p = true ↔
        etext < p ∧ p < init_array_start) ∧
    (∀ (d : Detector) (st : State) (size q : Nat), d.upper ≤ st.brk → (malloc st size).1 ≤ q →
      readonly_data_p d q = false) := by
  refine ⟨fun _ => rfl, fun a b p => ?_, fun a b p => ?_, fun d st size q hd hq => ?_⟩
  · simp [readonly_data_p]
  · simp [readonly_data_p]
  · have hq' : st.brk ≤ q := hq
    cases d with
    | disabled => rfl
    | macho a b =>
      have : ¬ q < b := by
        have : b ≤ st.brk := hd
        omega
      simp [readonly_data_p, this]
    | linker a b =>
      have : ¬ q < b := by
        have : b ≤ st.brk := hd
        omega
      simp [readonly_data_p, this]

/-- Witness of C15: the block that `malloc` hands out in `demo_state`, whose
break 4096 lies above the readonly range of `demo_cfg`. -/
theorem C15_detector_safety_witness :
    (demo_cfg.detector.upper ≤ demo_state.brk ∧
      (malloc demo_state 24).1 ≤ (malloc demo_state 24).1 + 5) ∧
    readonly_data_p demo_cfg.detector ((malloc demo_state 24).1 + 5) = false :=
  ⟨⟨by decide, by decide⟩,
    C15_detector_safety.2.2.2 demo_cfg.detector demo_state 24 _ (by decide) (by decide)⟩

/-! ## Hash and key equality (C17) -/

/-- C17 (the code at the failing input): the keys `(100, 7)` and `(300, 7)`
hold the same seven bytes and are `sym_eq`, both longer than six bytes, but
`sym_hash` also reads the byte after each key (0 after the first, 1 after
the second) and gives two different hashes. -/
theorem C17_hash_disagrees_with_eq :
    sym_eq demo_mem ⟨100, 7⟩ ⟨300, 7⟩ = true ∧
    read_bytes demo_mem 100 7 = read_bytes demo_mem 300 7 ∧
    demo_mem (100 + 7) = 0 ∧ demo_mem (300 + 7) = 1 ∧
    sym_hash demo_mem ⟨100, 7⟩ = 1791051003 ∧
    sym_hash demo_mem ⟨300, 7⟩ = 1791051004 ∧
    sym_hash demo_mem ⟨100, 7⟩ ≠ sym_hash demo_mem ⟨300, 7⟩ := by
  refine ⟨by decide, by decide, by decide, by decide, by decide, by decide, by decide⟩

/-! ## The table invariant (C18) -/

/-- C18: intern-table invariant.  In every state reachable from the empty
table through `strm_str_new`, `strm_str_intern` and `strm_str_intern_str`,
every entry has a key longer than six bytes, and the entry's key is its own
value's bytes: `key.ptr` is `strm_str_ptr(value)` and `key.len` is
`strm_str_len(value)`. -/
theorem C18_table_invariant (cfg : Config) (st : State) (hr : Reachable cfg st) :
    ∀ e, e ∈ sym_table_or_init st →
      6 < e.key.len ∧
      strm_str_ptr st e.value = .mem e.key.ptr ∧
      strm_str_len st e.value = e.key.len := by
  intro e he
  obtain ⟨a, ha, _, hv, hh, h6, _⟩ := reachable_table_ok cfg st hr e he
  refine ⟨h6, ?_, ?_⟩
  · rw [hv, strm_str_ptr, strm_strp_ptr_F _ _ ha, hh]
  · rw [hv, strm_str_len_F _ _ ha, hh]

/-- Witness of C18: the state reached from process start by interning
"streem!" at 100, whose table holds one entry. -/
theorem C18_table_invariant_witness :
    (Reachable demo_cfg (str_intern demo_cfg demo_state 100 7).2 ∧
      (sym_table_or_init (str_intern demo_cfg demo_state 100 7).2).length = 1) ∧
    ∀ e, e ∈ sym_table_or_init (str_intern demo_cfg demo_state 100 7).2 →
      6 < e.key.len ∧
      strm_str_ptr (str_intern demo_cfg demo_state 100 7).2 e.value = .mem e.key.ptr ∧
      strm_str_len (str_intern demo_cfg demo_state 100 7).2 e.value = e.key.len :=
  have hr : Reachable demo_cfg (str_intern demo_cfg demo_state 100 7).2 :=
    Reachable.intern demo_state 100 7 _ (Reachable.start _ rfl) (by decide) rfl
  ⟨⟨hr, by decide⟩, C18_table_invariant demo_cfg _ hr⟩

/-! ## Equality as a relation (C19) -/

/-- When `strm_str_eq` answers TRUE, for arbitrary words. -/
theorem strm_str_eq_iff (st : State) (a b : Nat) :
    strm_str_eq st a b = true ↔
      (a = b ∨
        (¬ (strm_value_tag a = STRM_TAG_STRING_F ∧ strm_value_tag b = STRM_TAG_STRING_F) ∧
          strm_str_len st a = strm_str_len st b ∧
          ∀ i, i < strm_str_len st a →
            (strm_str_ptr st a).load st.mem i = (strm_str_ptr st b).load st.mem i)) := by
  have hc : memcmp_eq st.mem (strm_str_ptr st a) (strm_str_ptr st b) (strm_str_len st a) = true ↔
      ∀ i, i < strm_str_len st a →
        (strm_str_ptr st a).load st.mem i = (strm_str_ptr st b).load st.mem i := by
    simp [memcmp_eq, List.all_eq_true]
  unfold strm_str_eq
  by_cases e : a = b
  · simp [e]
  · rw [if_neg e]
    by_cases hF : strm_value_tag a = STRM_TAG_STRING_F ∧ strm_value_tag b = STRM_TAG_STRING_F
    · rw [if_pos hF]
      simp [e, hF]
    · rw [if_neg hF]
      by_cases hl : strm_str_len st a = strm_str_len st b
      · rw [if_neg (fun h => h hl)]
        by_cases hm : memcmp_eq st.mem (strm_str_ptr st a) (strm_str_ptr st b)
            (strm_str_len st a) = true
        · rw [if_pos hm]
          simp only [true_iff]
          exact Or.inr ⟨hF, hl, hc.mp hm⟩
        · rw [if_neg hm]
          simp only [Bool.false_eq_true, false_iff, not_or, not_and]
          exact ⟨e, fun _ _ h => hm (hc.mpr h)⟩
      · rw [if_pos hl]
        simp only [Bool.false_eq_true, false_iff, not_or, not_and]
        exact ⟨e, fun _ h => absurd h hl⟩

/-- A TRUE answer of `strm_str_eq` means equal length and equal bytes. -/
theorem strm_str_eq_same_content (st : State) (a b : Nat) (h : strm_str_eq st a b = true) :
    strm_str_len st a = strm_str_len st b ∧
    ∀ i, i < strm_str_len st a →
      (strm_str_ptr st a).load st.mem i = (strm_str_ptr st b).load st.mem i := by
  rcases (strm_str_eq_iff st a b).mp h with e | ⟨_, h1, h2⟩
  · subst e
    exact ⟨rfl, fun _ _ => rfl⟩
  · exact ⟨h1, h2⟩

theorem strm_str_eq_symm_imp (st : State) (a b : Nat) (h : strm_str_eq st a b = true) :
    strm_str_eq st b a = true := by
  rcases (strm_str_eq_iff st a b).mp h with e | ⟨hF, h1, h2⟩
  · exact (strm_str_eq_iff st b a).mpr (Or.inl e.symm)
  · refine (strm_str_eq_iff st b a).mpr (Or.inr ⟨fun hh => hF ⟨hh.2, hh.1⟩, h1.symm, ?_⟩)
    intro i hi
    have hi' : i < strm_str_len st a := by rw [h1]; exact hi
    exact (h2 i hi').symm

/-- C19 (counterexample): the three values of `demo_r1`, `demo_r2` and
`demo_r3`, all built by `strm_str_new` in Shared mode from the same seven
bytes, are a ForeignRef, an OwnedBuffer and another ForeignRef; the first
equals the second and the second equals the third, but the first does not
equal the third. -/
theorem C19_eq_not_transitive :
    strm_value_tag demo_r1.1 = STRM_TAG_STRING_F ∧
    strm_value_tag demo_r2.1 = STRM_TAG_STRING_O ∧
    strm_value_tag demo_r3.1 = STRM_TAG_STRING_F ∧
    strm_str_eq demo_r3.2 demo_r1.1 demo_r2.1 = true ∧
    strm_str_eq demo_r3.2 demo_r2.1 demo_r3.1 = true ∧
    strm_str_eq demo_r3.2 demo_r1.1 demo_r3.1 = false := by
  refine ⟨by decide, by decide, by decide, by decide, by decide, by decide⟩

/-- C19 (amended): on all words, `strm_str_eq` is reflexive and symmetric,
and it is transitive up to the ForeignRef guard: if `strm_str_eq(a, b)` and
`strm_str_eq(b, c)` are TRUE, then `strm_str_eq(a, c)` is TRUE whenever `a`
and `c` are the same word or are not both ForeignRef. -/
theorem C19_eq_relation_amended (st : State) (a b c : Nat) :
    strm_str_eq st a a = true ∧
    strm_str_eq st a b = strm_str_eq st b a ∧
    (strm_str_eq st a b = true → strm_str_eq st b c = true →
      (a = c ∨
        ¬ (strm_value_tag a = STRM_TAG_STRING_F ∧ strm_value_tag c = STRM_TAG_STRING_F)) →
      strm_str_eq st a c = true) := by
  refine ⟨(strm_str_eq_iff st a a).mpr (Or.inl rfl), ?_, fun hab hbc h => ?_⟩
  · rw [Bool.eq_iff_iff]
    exact ⟨strm_str_eq_symm_imp st a b, strm_str_eq_symm_imp st b a⟩
  · rcases h with e | hF
    · exact (strm_str_eq_iff st a c).mpr (Or.inl e)
    · obtain ⟨l1, b1⟩ := strm_str_eq_same_content st a b hab
      obtain ⟨l2, b2⟩ := strm_str_eq_same_content st b c hbc
      refine (strm_str_eq_iff st a c).mpr (Or.inr ⟨hF, l1.trans l2, fun i hi => ?_⟩)
      have hi' : i < strm_str_len st b := by rw [← l1]; exact hi
      rw [b1 i hi, b2 i hi']

/-- Witness of C19 (amended): with the OwnedBuffer `demo_r2` at both ends and
the ForeignRef `demo_r1` in the middle, transitivity applies. -/
theorem C19_eq_relation_amended_witness :
    (strm_str_eq demo_r3.2 demo_r2.1 demo_r1.1 = true ∧
      strm_str_eq demo_r3.2 demo_r1.1 demo_r2.1 = true ∧
      (demo_r2.1 = demo_r2.1 ∨
        ¬ (strm_value_tag demo_r2.1 = STRM_TAG_STRING_F ∧
          strm_value_tag demo_r2.1 = STRM_TAG_STRING_F))) ∧
    strm_str_eq demo_r3.2 demo_r2.1 demo_r2.1 = true :=
  ⟨⟨by decide, by decide, Or.inl rfl⟩,
    (C19_eq_relation_amended demo_r3.2 demo_r2.1 demo_r1.1 demo_r2.1).2.2 (by decide) (by decide)
      (Or.inl rfl)⟩

/-! ## Inline encodings are canonical (C20) -/

theorem read_bytes_congr (m1 m2 : Memory) (p q n : Nat)
    (h : ∀ i, i < n → m1 (p + i) = m2 (q + i)) : read_bytes m1 p n = read_bytes m2 q n := by
  induction n generalizing p q with
  | zero => rfl
  | succ n ih =>
    simp only [read_bytes]
    rw [ih (p + 1) (q + 1) (fun i hi => by
      have := h (i + 1) (by omega)
      rw [show p + 1 + i = p + (i + 1) by omega, show q + 1 + i = q + (i + 1) by omega]
      exact this)]
    have h0 := h 0 (by omega)
    simp only [Nat.add_zero] at h0
    rw [h0]

/-- An inline value decodes to its input bytes in any state whatever. -/
theorem str_new_inline_decodes (cfg : Config) (st : State) (p n : Nat) (f : Int) (hp : p ≠ 0)
    (hn : n ≤ 6) (st0 : State) :
    decodes_to st0 (str_new cfg st p n f).1 n (fun i => st.mem (p + i)) := by
  rcases Nat.lt_or_ge n 6 with h | h
  · rw [str_new_I cfg st p n f hp h]
    refine ⟨strm_str_len_I _ _ _ _ h, fun i hi => ?_⟩
    rw [strm_strp_ptr_I _ _ _ _ h]
    exact byte_at_I st.mem p n i h hi
  · have : n = 6 := by omega
    subst this
    rw [str_new_6 cfg st p f hp]
    have hl : (read_bytes st.mem p 6).length ≤ 6 := by simp [read_bytes_length]
    refine ⟨strm_str_len_6 _ _ hl, fun i hi => ?_⟩
    rw [strm_strp_ptr_6 _ _ hl]
    simpa [CPtr.load] using byte_at_6 st.mem p i hi

/-- C20: inline encodings are canonical bit patterns.  For all non-null `p`
and `q`, all lengths `m, n <= 6` and all foreign hints (and whatever the
state and configuration of each call), the words `str_new(p, m, f)` and
`str_new(q, n, g)` are identical if and only if `m = n` and the `m` bytes at
`p` equal the `n` bytes at `q`; so the word depends on neither the pointer
address nor the hint, and the payload bytes of an InlineShort word past its
length byte and its `m` bytes are zero. -/
theorem C20_inline_canonical (cfg cfg' : Config) (st st' : State) (p q m n : Nat) (f g : Int)
    (hp : p ≠ 0) (hq : q ≠ 0) (hm : m ≤ 6) (hn : n ≤ 6) :
    ((str_new cfg st p m f).1 = (str_new cfg' st' q n g).1 ↔
      (m = n ∧ ∀ i, i < m → st.mem (p + i) = st'.mem (q + i))) ∧
    (m < 6 → ∀ i, m < i → i < 6 → byte_at (str_new cfg st p m f).1 i = 0) := by
  constructor
  · constructor
    · intro h
      have d1 := str_new_inline_decodes cfg st p m f hp hm st
      have d2 := str_new_inline_decodes cfg' st' q n g hq hn st
      rw [← h] at d2
      have hmn : m = n := d1.1.symm.trans d2.1
      refine ⟨hmn, fun i hi => ?_⟩
      have e1 := d1.2 i hi
      have e2 := d2.2 i (hmn ▸ hi)
      exact e1.symm.trans e2
    · rintro ⟨hmn, hb⟩
      subst hmn
      have hr := read_bytes_congr st.mem st'.mem p q m hb
      rcases Nat.lt_or_ge m 6 with h | h
      · rw [str_new_I cfg st p m f hp h, str_new_I cfg' st' q m g hq h, hr]
      · have : m = 6 := by omega
        subst this
        rw [str_new_6 cfg st p f hp, str_new_6 cfg' st' q g hq, hr]
  · intro h i hi1 hi2
    rw [str_new_I cfg st p m f hp h]
    have hl : (to_char m :: read_bytes st.mem p m).length ≤ 6 := by
      simp [read_bytes_length]; omega
    have := byte_at_tagged 6 (to_char m :: read_bytes st.mem p m) i hl hi2
    rw [show STRM_MAKE_TAG 6 = STRM_TAG_STRING_I from rfl] at this
    rw [this]
    apply List.getD_eq_default
    simp [read_bytes_length]
    omega

/-- Witness of C20: "stree" at 100 with the hint clear, in Single mode, and
"stree" at 1200 with the hint set, in Shared mode, give the same word. -/
theorem C20_inline_canonical_witness :
    (100 ≠ 0 ∧ 1200 ≠ 0 ∧ 5 ≤ 6 ∧
      (5 = 5 ∧ ∀ i, i < 5 → demo_state.mem (100 + i) = demo_state_shared.mem (1200 + i))) ∧
    (str_new demo_cfg demo_state 100 5 0).1 = (str_new demo_cfg demo_state_shared 1200 5 1).1 :=
  have hb : 5 = 5 ∧ ∀ i, i < 5 → demo_state.mem (100 + i) = demo_state_shared.mem (1200 + i) :=
    ⟨rfl, by decide⟩
  ⟨⟨by decide, by decide, by decide, hb⟩,
    (C20_inline_canonical demo_cfg demo_cfg demo_state demo_state_shared 100 1200 5 5 0 1
      (by decide) (by decide) (by decide) (by decide)).1.mpr hb⟩

end Streem
